import Mathlib

/-!
Verification of the address-reconciliation program (`main.py`).

The development shallowly embeds the program's components:

* `parse_address`   — the address normalizer (`parse_address` in the source);
  strings are processed as `List Char`, mirroring Python's `str.lower`,
  `str.strip`, `re.sub(r'[^\w\s]', '', ...)` and `str.split()` for ASCII
  text.  A result of `none` models an uncaught Python exception
  (`IndexError` from indexing into an empty token list).
* `extract_csv_data` — the tabular extractor; rows are `List (List String)`.
* `extract_osm_data` — the geodata extractor over an `XML` tree model.
* `append_xml`       — the reconciler, joining the two mappings and
  annotating the tree.
* `map_addresses`    — the map publisher loop, with the geocoder passed in
  as a function argument.

Python dictionaries are modelled as association lists with in-place
overwrite (`dinsert`), preserving insertion order as Python does.
-/

set_option autoImplicit false

namespace AddCsvToOsm

/-! ## Character-level primitives (ASCII fragment of Python's semantics) -/

/-- Whitespace characters recognised by `str.strip`, `str.split` and `\s`. -/
def isSpaceChar (c : Char) : Bool :=
  c = ' ' || c = '\t' || c = '\n' || c = '\r' || c = '\x0b' || c = '\x0c'

/-- ASCII decimal digits, as tested by `str.isdigit`. -/
def isDigitChar (c : Char) : Bool :=
  '0' ≤ c && c ≤ '9'

/-- Characters matched by `\w` in the pattern `[^\w\s]`: alphanumerics and
underscore. -/
def isWordChar (c : Char) : Bool :=
  ('a' ≤ c && c ≤ 'z') || ('A' ≤ c && c ≤ 'Z') || isDigitChar c || c = '_'

/-- `str.lower` on a single ASCII character. -/
def lowerChar (c : Char) : Char :=
  if 'A' ≤ c ∧ c ≤ 'Z' then Char.ofNat (c.toNat + 32) else c

/-- `address.lower()`. -/
def pyLower (l : List Char) : List Char :=
  l.map lowerChar

/-- `address.strip()`: drop leading and trailing whitespace. -/
def pyStrip (l : List Char) : List Char :=
  ((l.dropWhile isSpaceChar).reverse.dropWhile isSpaceChar).reverse

/-- `re.sub(r'[^\w\s]', '', address)`: delete every character that is
neither a word character nor whitespace. -/
def removePunct (l : List Char) : List Char :=
  l.filter (fun c => isWordChar c || isSpaceChar c)

/-- The lowering, stripping and punctuation removal that `parse_address`
performs before tokenising. -/
def cleanAddr (l : List Char) : List Char :=
  removePunct (pyStrip (pyLower l))

/-- Worker for `str.split()`: `acc` is the (reversed-free) token being
accumulated. -/
def splitWsAux : List Char → List Char → List (List Char)
  | [], acc => if acc.isEmpty then [] else [acc]
  | c :: cs, acc =>
    if isSpaceChar c then
      if acc.isEmpty then splitWsAux cs [] else acc :: splitWsAux cs []
    else splitWsAux cs (acc ++ [c])

/-- `str.split()` with no separator: split on whitespace runs, dropping
empty tokens. -/
def splitWs (l : List Char) : List (List Char) :=
  splitWsAux l []

/-- `' '.join(tokens)`. -/
def joinSpace : List (List Char) → List Char
  | [] => []
  | [t] => t
  | t :: ts => t ++ ' ' :: joinSpace ts

/-! ## The abbreviation table -/

/-- The `street_types` dictionary from the source. -/
def street_types : List (String × String) :=
  [("Ave", "Avenue"), ("Blvd", "Boulevard"), ("Cir", "Circle"),
   ("Ct", "Court"), ("Dr", "Drive"), ("Ln", "Lane"),
   ("N", "North"), ("Ne", "Northeast"), ("Nw", "Northwest"),
   ("Pky", "Parkway"), ("Pl", "Place"), ("Rd", "Road"),
   ("S", "South"), ("Se", "Southeast"), ("Sw", "Southwest"),
   ("St", "Street"), ("W", "West")]

/-- `street_types_lower`: keys and values lowercased. -/
def street_types_lower : List (List Char × List Char) :=
  street_types.map (fun p => (pyLower p.1.toList, pyLower p.2.toList))

/-- Replace a token by its expansion when it is a key of
`street_types_lower` (the tokens reaching this point are already
lowercase, so the `.lower()` in the source's membership test is the
identity). -/
def expandTok (t : List Char) : List Char :=
  match street_types_lower.lookup t with
  | some v => v
  | none => t

/-- `street_parts[0] = street_types_lower[street_parts[0]]` guarded by the
membership test. -/
def expandFirst : List (List Char) → List (List Char)
  | [] => []
  | t :: ts => expandTok t :: ts

/-- `street_parts[-1] = street_types_lower[street_parts[-1]]` guarded by
the membership test. -/
def expandLast : List (List Char) → List (List Char)
  | [] => []
  | [t] => [expandTok t]
  | t :: ts => t :: expandLast ts

/-! ## The normalizer `parse_address` -/

/-- `street_parts[-1].isdigit() or len(street_parts[-1]) == 1`. -/
def unitLike (t : List Char) : Bool :=
  (!t.isEmpty && t.all isDigitChar) || t.length == 1

/-- The token-level body of `parse_address`: `cleaned` is the cleaned
input (returned unchanged when there are no tokens, per the source's
degenerate-case guard) and `parts` its whitespace split.  `none` models
the uncaught `IndexError` raised by `street_parts[0]` when the
street-token list is empty. -/
def parseParts (cleaned : List Char) (parts : List (List Char)) : Option (List Char) :=
  match parts with
  | [] => some cleaned
  | street_number :: street_parts =>
    let unit : Bool :=
      decide (1 < street_parts.length) && unitLike (street_parts.getLastD [])
    let street_number2 :=
      if unit then street_number ++ ',' :: street_parts.getLastD []
      else street_number
    let street_parts2 :=
      if unit then street_parts.dropLast.dropLast else street_parts
    match street_parts2 with
    | [] => none
    | s0 :: rest =>
      some (street_number2 ++ ' ' :: joinSpace (expandLast (expandFirst (s0 :: rest))))

/-- `parse_address` on character lists: clean, tokenise, process. -/
def parse_addressC (cs : List Char) : Option (List Char) :=
  parseParts (cleanAddr cs) (splitWs (cleanAddr cs))

/-- `parse_address` on strings. -/
def parse_address (s : String) : Option String :=
  (parse_addressC s.toList).map List.asString

/-! ## Claims C3, C4, C5 about the normalizer -/

/-- C3, counterexample: `normalize("100 Pine St Apt 4")` is not
`"100,4 pine"`.  After the unit token `4` is folded into the house number
and the last two street tokens (`apt`, `4`) are dropped, the surviving
trailing token `st` is still expanded to `street`. -/
theorem parse_address_unit_suffix_cex :
    parse_address "100 Pine St Apt 4" ≠ some "100,4 pine" := by decide

/-- C3, amended: on `"100 Pine St Apt 4"` the normalizer detects the unit
token `4`, appends it to the house number with a comma, drops the last two
street tokens, and then expands the now-final token `st`, yielding
`"100,4 pine street"`. -/
theorem parse_address_unit_suffix_amended :
    parse_address "100 Pine St Apt 4" = some "100,4 pine street" := by decide

/-- C4, counterexample: `normalize("456 NE Oak Ave")` is not
`"456 ne oak avenue"`; the directional abbreviation `ne` occupies the
first street-token position and `street_types_lower` does contain `ne`,
so it is expanded. -/
theorem parse_address_abbrev_cex :
    parse_address "456 NE Oak Ave" ≠ some "456 ne oak avenue" := by decide

/-- C4, amended: a recognized street-type or directional abbreviation in
the first or last street-token position is replaced by its full lowercase
expansion; `normalize("123 Main St") = "123 main street"` and
`normalize("456 NE Oak Ave") = "456 northeast oak avenue"` (the token
`ne` in first position is expanded, contrary to the spec's second test). -/
theorem parse_address_abbrev_amended :
    parse_address "123 Main St" = some "123 main street" ∧
      parse_address "456 NE Oak Ave" = some "456 northeast oak avenue" := by
  exact ⟨by decide, by decide⟩

/-- C5, counterexample: the normalizer is not total.  On the single-token
input `"100"` the street-token list is empty and `street_parts[0]` raises
an `IndexError` (modelled by `none`). -/
theorem parse_address_total_cex : parse_address "100" = none := by decide

/-- C5, amended: the normalizer raises (returns `none`) exactly when the
cleaned input splits into a single token, or into exactly three tokens
whose last is purely numeric or one character long (so that dropping the
last two street tokens empties the street-token list).  On every other
input — including empty, punctuation-only and otherwise malformed
strings — it returns a best-effort normalized string. -/
theorem parse_address_error_characterization (cs : List Char) :
    parse_addressC cs = none ↔
      (splitWs (cleanAddr cs)).length = 1 ∨
        ((splitWs (cleanAddr cs)).length = 3 ∧
          unitLike ((splitWs (cleanAddr cs)).getLastD []) = true) := by
  have main : ∀ (cl : List Char) (parts : List (List Char)),
      parseParts cl parts = none ↔
        parts.length = 1 ∨
          (parts.length = 3 ∧ unitLike (parts.getLastD []) = true) := by
    intro cl parts
    match parts with
    | [] => simp [parseParts]
    | [a] => simp [parseParts]
    | [a, b] => simp [parseParts]
    | [a, b, c] =>
      by_cases hu : unitLike c = true
      · simp [parseParts, hu]
      · simp [parseParts, hu]
    | a :: b :: c :: d :: rs =>
      have hne : parseParts cl (a :: b :: c :: d :: rs) ≠ none := by
        intro h
        simp only [parseParts] at h
        split at h
        · next heq => split at heq <;> simp at heq
        · simp at h
      constructor
      · intro h
        exact absurd h hne
      · rintro (h | ⟨h, -⟩) <;> simp only [List.length_cons] at h <;> omega
  exact main (cleanAddr cs) (splitWs (cleanAddr cs))

/-! ## Python dictionaries as insertion-ordered association lists -/

/-- `d[k] = v` on a Python dict: an existing key keeps its position and its
value is overwritten; a new key is appended at the end. -/
def dinsert {α : Type} : List (String × α) → String → α → List (String × α)
  | [], k, v => [(k, v)]
  | p :: ps, k, v => if p.1 == k then (k, v) :: ps else p :: dinsert ps k v

/-! ## The tabular extractor `extract_csv_data` -/

/-- Insert a pair into a key-sorted list (Python `sorted` on dict items;
keys are distinct, so comparing keys suffices). -/
def insertSorted (p : String × String) : List (String × String) → List (String × String)
  | [] => [p]
  | q :: qs => if p.1 < q.1 then p :: q :: qs else q :: insertSorted p qs

/-- `dict(sorted(dwelling_dict.items()))`. -/
def sortByKey (d : List (String × String)) : List (String × String) :=
  d.foldr insertSorted []

/-- The row loop of `extract_csv_data`.  `none` models an uncaught
exception: either `parse_address` raising, or the `IndexError` from
`row[2]` on a row with fewer than three columns. -/
def extractCsvGo : List (List String) → List (String × String) → Option (List (String × String))
  | [], acc => some (sortByKey acc)
  | row :: rs, acc =>
    if row.isEmpty then extractCsvGo rs acc
    else
      match parse_address (row.headD "") with
      | none => none
      | some address =>
        if address.length < 5 then extractCsvGo rs acc
        else
          match row.get? 2 with
          | none => none
          | some du => extractCsvGo rs (dinsert acc address du)

/-- `extract_csv_data`, over the list of rows produced by the CSV reader.
The first row is the skipped header; `next(reader)` on an empty file
raises `StopIteration`, modelled by `none`. -/
def extract_csv_data (rows : List (List String)) : Option (List (String × String)) :=
  match rows with
  | [] => none
  | _ :: body => extractCsvGo body []

/-- C9: a non-empty row with fewer than three columns whose column-0
address normalizes to a string of length at least 5 makes
`extract_csv_data` fail with an index-range error when reading column 2
(modelled by `none`), rather than being skipped. -/
theorem extract_csv_short_row_fails (hdr row : List String) (a : String)
    (h1 : row ≠ []) (h2 : row.length < 3)
    (h3 : parse_address (row.headD "") = some a) (h4 : 5 ≤ a.length) :
    extract_csv_data [hdr, row] = none := by
  have hie : row.isEmpty = false := by
    cases row with
    | nil => exact absurd rfl h1
    | cons x xs => rfl
  have h3' : parse_address (row.head?.getD "") = some a := by
    simpa [List.headD_eq_head?_getD] using h3
  have hget : row[2]? = none := by
    rw [List.getElem?_eq_none_iff]
    omega
  have h5 : ¬(a.length < 5) := by omega
  simp [extract_csv_data, extractCsvGo, hie, h3', h5, hget]

/-- C9, witness: the two-column CSV `[["h"], ["100 main street"]]`
(header plus one one-column row) makes the extractor fail. -/
theorem extract_csv_short_row_fails_witness :
    extract_csv_data [["h"], ["100 main street"]] = none :=
  extract_csv_short_row_fails ["h"] ["100 main street"] "100 main street"
    (by decide) (by decide) (by decide) (by decide)

/-! ## The map publisher `map_addresses`

The geocoder is an external collaborator: it is passed in as a function
returning `none` for an unresolvable address.  The coordinate type is
abstract (the source works with latitude/longitude floats, which only
flow through to the rendering collaborator).  `map_addresses` returns the
markers placed on the map together with the final value of the
`mapped_addresses` counter. -/

/-- The marker placed for a dict entry: coordinates plus the popup text
`f"{address}\n({id})"`. -/
def markerFor {γ : Type} (c : γ) (id address : String) : γ × String :=
  (c, address ++ "\n(" ++ id ++ ")")

/-- The `for id, address in address_dict.items()` loop of `map_addresses`:
`n` is `mapped_addresses`, `ms` the markers placed so far. -/
def map_loop {γ : Type} (geocode : String → Option γ) :
    List (String × String) → Nat → List (γ × String) → List (γ × String) × Nat
  | [], n, ms => (ms, n)
  | (id, address) :: rest, n, ms =>
    if 600 < n then (ms, n)
    else
      match geocode address with
      | some c => map_loop geocode rest (n + 1) (ms ++ [markerFor c id address])
      | none => map_loop geocode rest (n + 1) ms

/-- `map_addresses`. -/
def map_addresses {γ : Type} (geocode : String → Option γ)
    (address_dict : List (String × String)) : List (γ × String) × Nat :=
  map_loop geocode address_dict 0 []

/-- The markers that geocoding and marker placement produce for a list of
entries, with no cap. -/
def placedMarkers {γ : Type} (g : String → Option γ)
    (l : List (String × String)) : List (γ × String) :=
  l.filterMap (fun p => (g p.2).map (fun c => markerFor c p.1 p.2))

theorem map_loop_spec {γ : Type} (g : String → Option γ)
    (l : List (String × String)) (n : Nat) (ms : List (γ × String))
    (hn : n ≤ 601) :
    map_loop g l n ms =
      (ms ++ placedMarkers g (l.take (601 - n)), min (n + l.length) 601) := by
  induction l generalizing n ms with
  | nil => simp [map_loop, placedMarkers]; omega
  | cons p rest ih =>
    obtain ⟨id, address⟩ := p
    by_cases h : 600 < n
    · have hn601 : n = 601 := by omega
      subst hn601
      simp [map_loop, placedMarkers]
    · have htake : 601 - n = (601 - (n + 1)) + 1 := by omega
      rw [htake, List.take_succ_cons]
      cases hg : g address with
      | some c =>
        rw [map_loop]
        simp only [if_neg h, hg]
        rw [ih (n + 1) _ (by omega)]
        simp [placedMarkers, hg, markerFor]
        omega
      | none =>
        rw [map_loop]
        simp only [if_neg h, hg]
        rw [ih (n + 1) _ (by omega)]
        simp [placedMarkers, hg]
        omega

theorem placedMarkers_length {γ : Type} (g : String → Option γ)
    (l : List (String × String)) :
    (placedMarkers g l).length = (l.filter (fun p => (g p.2).isSome)).length := by
  induction l with
  | nil => rfl
  | cons p ps ih =>
    cases hg : g p.2 <;>
      simp [placedMarkers, List.filterMap_cons, List.filter_cons, hg] <;>
      simp [placedMarkers] at ih <;> omega

/-- C7, counterexample: on a dictionary of 602 distinct entries and a
geocoder that resolves every address, `map_addresses` places 601 markers,
not at most 600: the loop compares the counter with the cap *before*
incrementing it for the current entry, so entries 1 through 601 all pass
the `mapped_addresses > max_addresses` test. -/
theorem map_addresses_cap_cex :
    600 <
      ((map_addresses (fun _ => some ((0 : Int), (0 : Int)))
          ((List.range 602).map (fun i => (toString i, "x")))).1).length := by
  rw [map_addresses, map_loop_spec _ _ 0 [] (by omega)]
  rw [List.nil_append, placedMarkers_length]
  simp [List.length_take]

/-- C7, amended: `map_addresses` places at most 601 markers and attempts
at most 601 entries (not 600: the strict comparison happens before the
increment, so one extra entry slips through); entries beyond that are
skipped by the `break`, which is not an error. -/
theorem map_addresses_cap_amended {γ : Type} (g : String → Option γ)
    (d : List (String × String)) :
    (map_addresses g d).1.length ≤ 601 ∧ (map_addresses g d).2 ≤ 601 := by
  rw [map_addresses, map_loop_spec g d 0 [] (by omega)]
  constructor
  · rw [List.nil_append, placedMarkers_length]
    calc ((d.take 601).filter (fun p => (g p.2).isSome)).length
        ≤ (d.take 601).length := List.length_filter_le _ _
      _ ≤ 601 := by simp [List.length_take]
  · simp

/-- C10: cap-slot accounting in `map_addresses`.  The `mapped_addresses`
counter ends at `min |dict| 601` for *every* geocoder — an entry whose
address fails to geocode still consumes a cap slot — and the markers
placed are exactly the successfully geocoded entries among the first 601,
so a failing entry is not replaced by a later one and the marker count
can be strictly below the counter. -/
theorem map_addresses_slot_accounting {γ : Type} (g : String → Option γ)
    (d : List (String × String)) :
    (map_addresses g d).2 = min d.length 601 ∧
      (map_addresses g d).1.length =
        ((d.take 601).filter (fun p => (g p.2).isSome)).length := by
  rw [map_addresses, map_loop_spec g d 0 [] (by omega)]
  exact ⟨by simp, by rw [List.nil_append, placedMarkers_length]⟩

/-! ## The geospatial tree

`XML` models an lxml element: a tag name, attributes, and child
elements. -/

inductive XML where
  | mk (tag : String) (attrs : List (String × String)) (children : List XML)

def XML.tagName : XML → String
  | .mk t _ _ => t

def XML.attrList : XML → List (String × String)
  | .mk _ a _ => a

def XML.childList : XML → List XML
  | .mk _ _ c => c

/-- `element.get(k)`. -/
def XML.getAttr (x : XML) (k : String) : Option String :=
  x.attrList.lookup k

/-- `xml_tree.find(f".//*[@id='{id}']")` searched below a list of
elements: the first element, in document (preorder) order, whose `id`
attribute equals `i`. -/
def findByIdL : List XML → String → Option XML
  | [], _ => none
  | .mk tg a c :: xs, i =>
    if (XML.mk tg a c).getAttr "id" = some i then some (.mk tg a c)
    else
      match findByIdL c i with
      | some e => some e
      | none => findByIdL xs i

/-- `node_element.append(new_tag)`. -/
def addChild (x t : XML) : XML :=
  .mk x.tagName x.attrList (x.childList ++ [t])

/-- The in-place mutation `find`-then-`append` performs, as a function:
append `t` to the children of the first element (in document order) whose
`id` attribute equals `i`; `none` when no element matches. -/
def appendTagByIdL : List XML → String → XML → Option (List XML)
  | [], _, _ => none
  | .mk tg a c :: xs, i, t =>
    if (XML.mk tg a c).getAttr "id" = some i then some (addChild (.mk tg a c) t :: xs)
    else
      match appendTagByIdL c i t with
      | some c2 => some (XML.mk tg a c2 :: xs)
      | none =>
        match appendTagByIdL xs i t with
        | some xs2 => some (XML.mk tg a c :: xs2)
        | none => none

/-- `et.Element('tag', k='dwelling_units', v=units)`. -/
def dwellingTag (units : String) : XML :=
  .mk "tag" [("k", "dwelling_units"), ("v", units)] []

theorem getAttr_addChild (x t : XML) (k : String) :
    (addChild x t).getAttr k = x.getAttr k := by
  cases x; rfl

theorem findByIdL_append (l1 l2 : List XML) (i : String) :
    findByIdL (l1 ++ l2) i =
      (match findByIdL l1 i with
       | some e => some e
       | none => findByIdL l2 i) := by
  induction l1 with
  | nil => simp [findByIdL]
  | cons x xs ih =>
    obtain ⟨tg, a, c⟩ := x
    rw [List.cons_append, findByIdL, findByIdL]
    by_cases hx : (XML.mk tg a c).getAttr "id" = some i
    · simp [hx]
    · simp only [if_neg hx]
      cases hc : findByIdL c i with
      | some e => simp
      | none => simp [ih]

/-- The element returned by `find` carries the looked-up `id`. -/
theorem findByIdL_getAttr (l : List XML) (i : String) (e : XML)
    (h : findByIdL l i = some e) : e.getAttr "id" = some i := by
  induction l, i using findByIdL.induct with
  | case1 i => simp [findByIdL] at h
  | case2 tg a c xs i hx =>
    rw [findByIdL, if_pos hx] at h
    cases h; exact hx
  | case3 tg a c xs i hx e2 he ih =>
    rw [findByIdL, if_neg hx, he] at h
    cases h; exact ih he
  | case4 tg a c xs i hx he ih1 ih2 =>
    rw [findByIdL, if_neg hx, he] at h
    exact ih2 h

/-- Appending somewhere inside a list of elements does not change its
length. -/
theorem appendTagByIdL_length (l l' : List XML) (i : String) (t : XML)
    (h : appendTagByIdL l i t = some l') : l'.length = l.length := by
  induction l, i, t using appendTagByIdL.induct generalizing l' with
  | case1 i t => simp [appendTagByIdL] at h
  | case2 tg a c xs i t hx =>
    rw [appendTagByIdL, if_pos hx] at h
    cases h; simp
  | case3 tg a c xs i t hx c2 hc ih =>
    rw [appendTagByIdL, if_neg hx, hc] at h
    cases h; simp
  | case4 tg a c xs i t hx hc xs2 hxs ih1 ih2 =>
    rw [appendTagByIdL, if_neg hx, hc, hxs] at h
    cases h
    simp [ih2 xs2 hxs]
  | case5 tg a c xs i t hx hc hxs ih1 ih2 =>
    rw [appendTagByIdL, if_neg hx, hc, hxs] at h
    cases h

/-- `find` fails exactly where the append-mutation fails. -/
theorem appendTagByIdL_none_iff (l : List XML) (i : String) (t : XML) :
    appendTagByIdL l i t = none ↔ findByIdL l i = none := by
  induction l, i using findByIdL.induct with
  | case1 i => simp [findByIdL, appendTagByIdL]
  | case2 tg a c xs i hx =>
    rw [findByIdL, if_pos hx, appendTagByIdL, if_pos hx]
    simp
  | case3 tg a c xs i hx e2 he ih =>
    rw [findByIdL, if_neg hx, he, appendTagByIdL, if_neg hx]
    have hc : appendTagByIdL c i t ≠ none := by
      intro hc
      rw [ih.mp hc] at he
      exact Option.noConfusion he
    cases hac : appendTagByIdL c i t with
    | none => exact absurd hac hc
    | some c2 => simp
  | case4 tg a c xs i hx he ih1 ih2 =>
    rw [findByIdL, if_neg hx, he, appendTagByIdL, if_neg hx]
    rw [ih1.mpr he]
    cases hax : appendTagByIdL xs i t with
    | none => simpa [ih2] using hax
    | some xs2 =>
      constructor
      · intro hcontra; exact Option.noConfusion hcontra
      · intro hfxs
        rw [ih2.mpr hfxs] at hax
        exact Option.noConfusion hax

/-- A childless element with no `id` attribute survives any
append-mutation: it can be neither the target nor an ancestor of the
target. -/
theorem mem_of_appendTag (l l' : List XML) (j : String) (t x : XML)
    (hid : x.getAttr "id" = none) (hch : x.childList = [])
    (happ : appendTagByIdL l j t = some l') (hx : x ∈ l) : x ∈ l' := by
  induction l, j, t using appendTagByIdL.induct generalizing l' with
  | case1 j t => simp [appendTagByIdL] at happ
  | case2 tg a c xs j t hj =>
    rw [appendTagByIdL, if_pos hj] at happ
    cases happ
    rcases List.mem_cons.mp hx with hx1 | hx2
    · rw [hx1] at hid
      rw [hid] at hj
      exact Option.noConfusion hj
    · exact List.mem_cons_of_mem _ hx2
  | case3 tg a c xs j t hj c2 hc ih =>
    rw [appendTagByIdL, if_neg hj, hc] at happ
    cases happ
    rcases List.mem_cons.mp hx with hx1 | hx2
    · exfalso
      have hcnil : c = [] := by
        rw [hx1] at hch
        exact hch
      rw [hcnil, appendTagByIdL] at hc
      exact Option.noConfusion hc
    · exact List.mem_cons_of_mem _ hx2
  | case4 tg a c xs j t hj hc xs2 hxs ih1 ih2 =>
    rw [appendTagByIdL, if_neg hj, hc, hxs] at happ
    cases happ
    rcases List.mem_cons.mp hx with hx1 | hx2
    · exact hx1 ▸ List.mem_cons_self _ _
    · exact List.mem_cons_of_mem _ (ih2 xs2 hxs hx2)
  | case5 tg a c xs j t hj hc hxs ih1 ih2 =>
    rw [appendTagByIdL, if_neg hj, hc, hxs] at happ
    exact Option.noConfusion happ

/-- Destructure a failed `find` on a cons cell. -/
theorem findByIdL_cons_none (tg : String) (a : List (String × String))
    (c xs : List XML) (i : String)
    (h : findByIdL (XML.mk tg a c :: xs) i = none) :
    (XML.mk tg a c).getAttr "id" ≠ some i ∧
      findByIdL c i = none ∧ findByIdL xs i = none := by
  by_cases hni : (XML.mk tg a c).getAttr "id" = some i
  · rw [findByIdL, if_pos hni] at h
    exact Option.noConfusion h
  · rw [findByIdL, if_neg hni] at h
    cases hc : findByIdL c i with
    | some e => rw [hc] at h; exact Option.noConfusion h
    | none =>
      rw [hc] at h
      exact ⟨hni, rfl, h⟩

/-- Reassemble a failed `find` on a cons cell. -/
theorem findByIdL_cons_none_intro (tg : String) (a : List (String × String))
    (c xs : List XML) (i : String)
    (hni : (XML.mk tg a c).getAttr "id" ≠ some i)
    (hc : findByIdL c i = none) (hxs : findByIdL xs i = none) :
    findByIdL (XML.mk tg a c :: xs) i = none := by
  rw [findByIdL, if_neg hni, hc]
  exact hxs

/-- A childless element not carrying `id = i` is invisible to `find i`. -/
theorem findByIdL_singleton_none (t : XML) (i : String)
    (hid : t.getAttr "id" ≠ some i) (hch : t.childList = []) :
    findByIdL [t] i = none := by
  obtain ⟨tt, ta, tc⟩ := t
  have htc : tc = [] := hch
  rw [findByIdL, if_neg hid, htc]
  simp [findByIdL]

/-- Inserting a childless element that does not carry `id = i` never makes
`find i` succeed. -/
theorem findByIdL_none_of_appendTag (l l' : List XML) (i j : String) (t : XML)
    (hid : t.getAttr "id" ≠ some i) (hch : t.childList = [])
    (happ : appendTagByIdL l j t = some l')
    (hf : findByIdL l i = none) : findByIdL l' i = none := by
  induction l, j, t using appendTagByIdL.induct generalizing l' with
  | case1 j t => simp [appendTagByIdL] at happ
  | case2 tg a c xs j t hj =>
    rw [appendTagByIdL, if_pos hj] at happ
    cases happ
    obtain ⟨hni, hc, hxs⟩ := findByIdL_cons_none tg a c xs i hf
    refine findByIdL_cons_none_intro tg a (c ++ [t]) xs i ?_ ?_ hxs
    · rw [show (XML.mk tg a (c ++ [t])).getAttr "id" = (XML.mk tg a c).getAttr "id" from rfl]
      exact hni
    · rw [findByIdL_append, hc]
      exact findByIdL_singleton_none t i hid hch
  | case3 tg a c xs j t hj c2 hc ih =>
    rw [appendTagByIdL, if_neg hj, hc] at happ
    cases happ
    obtain ⟨hni, hfc, hfxs⟩ := findByIdL_cons_none tg a c xs i hf
    exact findByIdL_cons_none_intro tg a c2 xs i hni (ih c2 hid hch hc hfc) hfxs
  | case4 tg a c xs j t hj hc xs2 hxs ih1 ih2 =>
    rw [appendTagByIdL, if_neg hj, hc, hxs] at happ
    cases happ
    obtain ⟨hni, hfc, hfxs⟩ := findByIdL_cons_none tg a c xs i hf
    exact findByIdL_cons_none_intro tg a c xs2 i hni hfc (ih2 xs2 hid hch hxs hfxs)
  | case5 tg a c xs j t hj hc hxs ih1 ih2 =>
    rw [appendTagByIdL, if_neg hj, hc, hxs] at happ
    exact Option.noConfusion happ

/-- When `find i` succeeds, the append-mutation targets exactly the found
element: it succeeds, and re-running `find i` afterwards returns the found
element with the new child appended. -/
theorem appendTag_find_target (l : List XML) (i : String) (t e : XML)
    (h : findByIdL l i = some e) :
    ∃ l', appendTagByIdL l i t = some l' ∧
      findByIdL l' i = some (addChild e t) := by
  induction l, i using findByIdL.induct generalizing e with
  | case1 i => simp [findByIdL] at h
  | case2 tg a c xs i hx =>
    rw [findByIdL, if_pos hx] at h
    cases h
    refine ⟨addChild (XML.mk tg a c) t :: xs, ?_, ?_⟩
    · rw [appendTagByIdL, if_pos hx]
    · show findByIdL (XML.mk tg a (c ++ [t]) :: xs) i = some (XML.mk tg a (c ++ [t]))
      rw [findByIdL,
        if_pos (show (XML.mk tg a (c ++ [t])).getAttr "id" = some i from hx)]
  | case3 tg a c xs i hx e2 he ih =>
    rw [findByIdL, if_neg hx, he] at h
    cases h
    obtain ⟨c2, hac, hfc2⟩ := ih e2 he
    refine ⟨XML.mk tg a c2 :: xs, ?_, ?_⟩
    · rw [appendTagByIdL, if_neg hx, hac]
    · rw [findByIdL,
        if_neg (show ¬(XML.mk tg a c2).getAttr "id" = some i from hx), hfc2]
  | case4 tg a c xs i hx he ih1 ih2 =>
    rw [findByIdL, if_neg hx, he] at h
    obtain ⟨xs2, hax, hfxs2⟩ := ih2 e h
    refine ⟨XML.mk tg a c :: xs2, ?_, ?_⟩
    · rw [appendTagByIdL, if_neg hx, (appendTagByIdL_none_iff c i t).mpr he, hax]
    · rw [findByIdL, if_neg hx, he, hfxs2]

/-- Frame lemma: appending the (id-free, childless) tag element to the
element with id `j` leaves the element found at a different id `i` with
the same tag name, the same attributes, the same number of children, and
all of its id-free childless children. -/
theorem find_frame (l l' : List XML) (i j : String) (t e : XML)
    (hij : i ≠ j)
    (hid : t.getAttr "id" = none) (hch : t.childList = [])
    (happ : appendTagByIdL l j t = some l')
    (hf : findByIdL l i = some e) :
    ∃ e', findByIdL l' i = some e' ∧ e'.tagName = e.tagName ∧
      e'.attrList = e.attrList ∧
      e'.childList.length = e.childList.length ∧
      (∀ x, x.getAttr "id" = none → x.childList = [] →
        x ∈ e.childList → x ∈ e'.childList) := by
  have hidne : t.getAttr "id" ≠ some i := by rw [hid]; exact Option.noConfusion
  induction l, j, t using appendTagByIdL.induct generalizing l' e with
  | case1 j t => simp [appendTagByIdL] at happ
  | case2 tg a c xs j t hj =>
    rw [appendTagByIdL, if_pos hj] at happ
    cases happ
    have hni : (XML.mk tg a c).getAttr "id" ≠ some i := by
      rw [hj]
      intro hcontra
      exact hij (Option.some.inj hcontra).symm
    rw [findByIdL, if_neg hni] at hf
    cases hfc : findByIdL c i with
    | some e2 =>
      rw [hfc] at hf
      refine ⟨e, ?_, rfl, rfl, rfl, fun x _ _ hx => hx⟩
      show findByIdL (XML.mk tg a (c ++ [t]) :: xs) i = some e
      rw [findByIdL,
        if_neg (show ¬(XML.mk tg a (c ++ [t])).getAttr "id" = some i from hni),
        findByIdL_append, hfc]
      exact hf
    | none =>
      rw [hfc] at hf
      refine ⟨e, ?_, rfl, rfl, rfl, fun x _ _ hx => hx⟩
      show findByIdL (XML.mk tg a (c ++ [t]) :: xs) i = some e
      rw [findByIdL,
        if_neg (show ¬(XML.mk tg a (c ++ [t])).getAttr "id" = some i from hni),
        findByIdL_append, hfc, findByIdL_singleton_none t i hidne hch]
      exact hf
  | case3 tg a c xs j t hj c2 hc ih =>
    rw [appendTagByIdL, if_neg hj, hc] at happ
    cases happ
    by_cases hni : (XML.mk tg a c).getAttr "id" = some i
    · rw [findByIdL, if_pos hni] at hf
      cases hf
      refine ⟨XML.mk tg a c2, ?_, rfl, rfl, ?_, ?_⟩
      · rw [findByIdL,
          if_pos (show (XML.mk tg a c2).getAttr "id" = some i from hni)]
      · exact appendTagByIdL_length c c2 j t hc
      · intro x hxid hxch hx
        exact mem_of_appendTag c c2 j t x hxid hxch hc hx
    · rw [findByIdL, if_neg hni] at hf
      cases hfc : findByIdL c i with
      | some e2 =>
        rw [hfc] at hf
        replace hf : e2 = e := Option.some.inj hf
        subst hf
        obtain ⟨e', hfe', h1, h2, h3, h4⟩ := ih c2 e2 hij hid hch hc hfc hidne
        refine ⟨e', ?_, h1, h2, h3, h4⟩
        rw [findByIdL,
          if_neg (show ¬(XML.mk tg a c2).getAttr "id" = some i from hni), hfe']
      | none =>
        rw [hfc] at hf
        refine ⟨e, ?_, rfl, rfl, rfl, fun x _ _ hx => hx⟩
        rw [findByIdL,
          if_neg (show ¬(XML.mk tg a c2).getAttr "id" = some i from hni),
          findByIdL_none_of_appendTag c c2 i j t hidne hch hc hfc]
        exact hf
  | case4 tg a c xs j t hj hc xs2 hxs ih1 ih2 =>
    rw [appendTagByIdL, if_neg hj, hc, hxs] at happ
    cases happ
    by_cases hni : (XML.mk tg a c).getAttr "id" = some i
    · rw [findByIdL, if_pos hni] at hf
      cases hf
      exact ⟨XML.mk tg a c, by rw [findByIdL, if_pos hni], rfl, rfl, rfl,
        fun x _ _ hx => hx⟩
    · rw [findByIdL, if_neg hni] at hf
      cases hfc : findByIdL c i with
      | some e2 =>
        rw [hfc] at hf
        replace hf : e2 = e := Option.some.inj hf
        subst hf
        exact ⟨e2, by rw [findByIdL, if_neg hni, hfc], rfl, rfl, rfl,
          fun x _ _ hx => hx⟩
      | none =>
        rw [hfc] at hf
        replace hf : findByIdL xs i = some e := hf
        obtain ⟨e', hfe', h1, h2, h3, h4⟩ := ih2 xs2 e hij hid hch hxs hf hidne
        refine ⟨e', ?_, h1, h2, h3, h4⟩
        rw [findByIdL, if_neg hni, hfc]
        exact hfe'
  | case5 tg a c xs j t hj hc hxs ih1 ih2 =>
    rw [appendTagByIdL, if_neg hj, hc, hxs] at happ
    exact Option.noConfusion happ

/-! ## Lookup facts about `dinsert` -/

def keys {α : Type} (d : List (String × α)) : List String :=
  d.map Prod.fst

theorem lookup_append_pairs {α : Type} (l1 l2 : List (String × α)) (k : String) :
    (l1 ++ l2).lookup k =
      (match l1.lookup k with
       | some v => some v
       | none => l2.lookup k) := by
  induction l1 with
  | nil => simp
  | cons p ps ih =>
    obtain ⟨pk, pv⟩ := p
    by_cases hp : k == pk
    · simp [List.lookup, hp]
    · simp only [List.cons_append, List.lookup, hp]
      simpa using ih

theorem dinsert_lookup_self {α : Type} (d : List (String × α)) (k : String) (v : α) :
    (dinsert d k v).lookup k = some v := by
  induction d with
  | nil => simp [dinsert, List.lookup]
  | cons p ps ih =>
    obtain ⟨pk, pv⟩ := p
    by_cases hp : pk == k
    · rw [dinsert, if_pos hp]
      simp [List.lookup]
    · rw [dinsert, if_neg hp]
      have hkp : (k == pk) = false := by
        have : pk ≠ k := by simpa using hp
        simpa using Ne.symm this
      simp [List.lookup, hkp, ih]

theorem dinsert_lookup_ne {α : Type} (d : List (String × α)) (k i : String)
    (v : α) (hik : i ≠ k) :
    (dinsert d k v).lookup i = d.lookup i := by
  have hikb : (i == k) = false := by simpa using hik
  induction d with
  | nil => simp [dinsert, List.lookup, hikb]
  | cons p ps ih =>
    obtain ⟨pk, pv⟩ := p
    by_cases hp : pk == k
    · rw [dinsert, if_pos hp]
      have hpk : pk = k := by simpa using hp
      subst hpk
      simp [List.lookup, hikb]
    · rw [dinsert, if_neg hp]
      simp [List.lookup, ih]

/-- With `Nodup` keys, two entries sharing a key coincide. -/
theorem nodup_keys_eq_val {α : Type} (d : List (String × α))
    (hnd : (keys d).Nodup) (i : String) (a b : α)
    (ha : (i, a) ∈ d) (hb : (i, b) ∈ d) : a = b := by
  induction d with
  | nil => simp at ha
  | cons p ps ih =>
    rw [keys, List.map_cons, List.nodup_cons] at hnd
    rcases List.mem_cons.mp ha with ha1 | ha2 <;>
      rcases List.mem_cons.mp hb with hb1 | hb2
    · rw [← ha1] at hb1
      exact (Prod.mk.injEq _ _ _ _ ▸ hb1).2.symm ▸ rfl
    · exfalso
      apply hnd.1
      rw [← ha1]
      simpa using List.mem_map_of_mem Prod.fst hb2
    · exfalso
      apply hnd.1
      rw [← hb1]
      simpa using List.mem_map_of_mem Prod.fst ha2
    · exact ih hnd.2 ha2 hb2

/-! ## The reconciler `append_xml` -/

/-- The entry loop of `append_xml`.  For a matched entry the element is
located in the *current* tree by id; a found element with no children
makes `node_element[0]` raise `IndexError` (the source reads the first
child into `matched_element` for its node/way counters), modelled by
`none`; otherwise the dwelling-units tag is appended to the found element
and the match recorded in the output dict.  (In the source the recording
happens just before the potential crash; since a crash aborts the whole
run, conditioning on success makes the two orders agree.) -/
def appendXmlGo (inp : List (String × String)) :
    XML → List (String × String) → List (String × String) →
      Option (XML × List (String × String))
  | tree, out, [] => some (tree, out)
  | tree, out, (id, address) :: rest =>
    match inp.lookup address with
    | none => appendXmlGo inp tree out rest
    | some units =>
      match findByIdL tree.childList id with
      | none => appendXmlGo inp tree out rest
      | some e =>
        match e.childList with
        | [] => none
        | _ :: _ =>
          match appendTagByIdL tree.childList id (dwellingTag units) with
          | none => none
          | some cs =>
            appendXmlGo inp (XML.mk tree.tagName tree.attrList cs)
              (dinsert out id address) rest

/-- `append_xml(xml_file, element_dict, input_dict, output_dict)`: the
tree is parsed from the file, `output_dict` starts as the caller's empty
dict, and the annotated tree is returned in place of the file write. -/
def append_xml (tree : XML) (element_dict input_dict : List (String × String)) :
    Option (XML × List (String × String)) :=
  appendXmlGo input_dict tree [] element_dict

theorem dwellingTag_getAttr_id (u : String) :
    (dwellingTag u).getAttr "id" = none := rfl

theorem dwellingTag_childList (u : String) :
    (dwellingTag u).childList = [] := rfl

/-- Entries whose id never reaches the insert branch leave the output
dict's binding for that id unchanged. -/
theorem appendXmlGo_lookup_skip (inp : List (String × String)) (i : String)
    (es : List (String × String)) :
    ∀ (tree : XML) (out : List (String × String)) (t' : XML)
      (o' : List (String × String)),
      appendXmlGo inp tree out es = some (t', o') →
      (∀ b, (i, b) ∈ es → inp.lookup b = none) →
      o'.lookup i = out.lookup i := by
  induction es with
  | nil =>
    intro tree out t' o' h _
    rw [appendXmlGo] at h
    cases h
    rfl
  | cons p rest ih =>
    obtain ⟨j, b⟩ := p
    intro tree out t' o' h hskip
    have hskip2 : ∀ b2, (i, b2) ∈ rest → inp.lookup b2 = none :=
      fun b2 hb2 => hskip b2 (List.mem_cons_of_mem _ hb2)
    rw [appendXmlGo] at h
    cases hlook : inp.lookup b with
    | none =>
      simp only [hlook] at h
      exact ih tree out t' o' h hskip2
    | some u =>
      simp only [hlook] at h
      have hji : j ≠ i := by
        intro hji
        subst hji
        have := hskip b (List.mem_cons_self _ _)
        rw [hlook] at this
        exact Option.noConfusion this
      cases hfind : findByIdL tree.childList j with
      | none =>
        simp only [hfind] at h
        exact ih tree out t' o' h hskip2
      | some e =>
        simp only [hfind] at h
        cases hech : e.childList with
        | nil =>
          simp only [hech] at h
          exact Option.noConfusion h
        | cons y ys =>
          simp only [hech] at h
          cases happ : appendTagByIdL tree.childList j (dwellingTag u) with
          | none =>
            simp only [happ] at h
            exact Option.noConfusion h
          | some cs =>
            simp only [happ] at h
            rw [ih _ _ t' o' h hskip2]
            exact dinsert_lookup_ne out j i b (Ne.symm hji)

/-- Entries whose id never reaches the insert branch leave the element
found at that id with the same tag, attributes, child count, and id-free
childless children. -/
theorem appendXmlGo_frame (inp : List (String × String)) (i : String)
    (es : List (String × String)) :
    ∀ (tree : XML) (out : List (String × String)) (t' : XML)
      (o' : List (String × String)) (e : XML),
      appendXmlGo inp tree out es = some (t', o') →
      (∀ b, (i, b) ∈ es → inp.lookup b = none) →
      findByIdL tree.childList i = some e →
      ∃ e', findByIdL t'.childList i = some e' ∧ e'.tagName = e.tagName ∧
        e'.attrList = e.attrList ∧
        e'.childList.length = e.childList.length ∧
        (∀ x, x.getAttr "id" = none → x.childList = [] →
          x ∈ e.childList → x ∈ e'.childList) := by
  induction es with
  | nil =>
    intro tree out t' o' e h _ hf
    rw [appendXmlGo] at h
    cases h
    exact ⟨e, hf, rfl, rfl, rfl, fun x _ _ hx => hx⟩
  | cons p rest ih =>
    obtain ⟨j, b⟩ := p
    intro tree out t' o' e h hskip hf
    have hskip2 : ∀ b2, (i, b2) ∈ rest → inp.lookup b2 = none :=
      fun b2 hb2 => hskip b2 (List.mem_cons_of_mem _ hb2)
    rw [appendXmlGo] at h
    cases hlook : inp.lookup b with
    | none =>
      simp only [hlook] at h
      exact ih tree out t' o' e h hskip2 hf
    | some u =>
      simp only [hlook] at h
      have hji : i ≠ j := by
        intro hji
        subst hji
        have := hskip b (List.mem_cons_self _ _)
        rw [hlook] at this
        exact Option.noConfusion this
      cases hfind : findByIdL tree.childList j with
      | none =>
        simp only [hfind] at h
        exact ih tree out t' o' e h hskip2 hf
      | some ej =>
        simp only [hfind] at h
        cases hech : ej.childList with
        | nil =>
          simp only [hech] at h
          exact Option.noConfusion h
        | cons y ys =>
          simp only [hech] at h
          cases happ : appendTagByIdL tree.childList j (dwellingTag u) with
          | none =>
            simp only [happ] at h
            exact Option.noConfusion h
          | some cs =>
            simp only [happ] at h
            obtain ⟨e2, hf2, h1, h2, h3, h4⟩ :=
              find_frame tree.childList cs i j (dwellingTag u) e hji
                (dwellingTag_getAttr_id u) (dwellingTag_childList u) happ hf
            obtain ⟨e', hf', g1, g2, g3, g4⟩ :=
              ih (XML.mk tree.tagName tree.attrList cs) (dinsert out j b)
                t' o' e2 h hskip2 hf2
            refine ⟨e', hf', ?_, ?_, ?_, ?_⟩
            · rw [g1, h1]
            · rw [g2, h2]
            · rw [g3, h3]
            · intro x hxid hxch hx
              exact g4 x hxid hxch (h4 x hxid hxch hx)

/-- The main loop invariant for a matched entry: once `(i, a)` is reached
its match is recorded and the dwelling-units tag is appended to the
element with id `i`; later iterations (distinct keys) preserve both. -/
theorem appendXmlGo_match (inp : List (String × String)) (i a u : String)
    (hrec : inp.lookup a = some u) (es : List (String × String)) :
    ∀ (tree : XML) (out : List (String × String)) (t' : XML)
      (o' : List (String × String)) (e : XML),
      appendXmlGo inp tree out es = some (t', o') →
      (keys es).Nodup → (i, a) ∈ es →
      findByIdL tree.childList i = some e →
      o'.lookup i = some a ∧
        ∃ e', findByIdL t'.childList i = some e' ∧
          e'.childList.length = e.childList.length + 1 ∧
          dwellingTag u ∈ e'.childList := by
  induction es with
  | nil =>
    intro tree out t' o' e h _ hmem _
    simp at hmem
  | cons p rest ih =>
    obtain ⟨j, b⟩ := p
    intro tree out t' o' e h hnd hmem hf
    rw [keys, List.map_cons, List.nodup_cons] at hnd
    obtain ⟨hnd1, hnd2⟩ := hnd
    rw [appendXmlGo] at h
    rcases List.mem_cons.mp hmem with heq | hmem2
    · cases heq
      simp only [hrec, hf] at h
      cases hech : e.childList with
      | nil =>
        simp only [hech] at h
        exact Option.noConfusion h
      | cons y ys =>
        simp only [hech] at h
        obtain ⟨cs, happ, hfind'⟩ :=
          appendTag_find_target tree.childList i (dwellingTag u) e hf
        simp only [happ] at h
        have hskip : ∀ b2, (i, b2) ∈ rest → inp.lookup b2 = none := by
          intro b2 hb2
          exact absurd (by simpa using List.mem_map_of_mem Prod.fst hb2) hnd1
        constructor
        · rw [appendXmlGo_lookup_skip inp i rest _ _ t' o' h hskip]
          exact dinsert_lookup_self out i a
        · obtain ⟨e', hf', g1, g2, g3, g4⟩ :=
            appendXmlGo_frame inp i rest _ _ t' o'
              (addChild e (dwellingTag u)) h hskip hfind'
          refine ⟨e', hf', ?_, ?_⟩
          · rw [g3]
            show (e.childList ++ [dwellingTag u]).length = (y :: ys).length + 1
            rw [hech]
            simp
          · apply g4 (dwellingTag u) (dwellingTag_getAttr_id u)
              (dwellingTag_childList u)
            show dwellingTag u ∈ e.childList ++ [dwellingTag u]
            simp
    · have hji : i ≠ j := by
        intro hji
        subst hji
        exact hnd1 (by simpa using List.mem_map_of_mem Prod.fst hmem2)
      cases hlook : inp.lookup b with
      | none =>
        simp only [hlook] at h
        exact ih tree out t' o' e h hnd2 hmem2 hf
      | some ub =>
        simp only [hlook] at h
        cases hfind : findByIdL tree.childList j with
        | none =>
          simp only [hfind] at h
          exact ih tree out t' o' e h hnd2 hmem2 hf
        | some ej =>
          simp only [hfind] at h
          cases hech : ej.childList with
          | nil =>
            simp only [hech] at h
            exact Option.noConfusion h
          | cons y ys =>
            simp only [hech] at h
            cases happ : appendTagByIdL tree.childList j (dwellingTag ub) with
            | none =>
              simp only [happ] at h
              exact Option.noConfusion h
            | some cs =>
              simp only [happ] at h
              obtain ⟨e2, hf2, h1, h2, h3, h4⟩ :=
                find_frame tree.childList cs i j (dwellingTag ub) e hji
                  (dwellingTag_getAttr_id ub) (dwellingTag_childList ub) happ hf
              obtain ⟨hout, e', hf', g3, g4⟩ :=
                ih (XML.mk tree.tagName tree.attrList cs) (dinsert out j b)
                  t' o' e2 h hnd2 hmem2 hf2
              exact ⟨hout, e', hf', by rw [g3, h3], g4⟩

/-- C1: join correctness of the reconciler.  For an entry `(i, a)` of
`element_dict` (distinct keys, as a dict has) whose address `a` is bound
to `u` in `input_dict` and whose id is found in the tree, a successful
`append_xml` run records `(i, a)` in the output mapping and the element
with id `i` in the resulting tree has gained exactly one child, the
`dwelling_units` tag valued `u`. -/
theorem append_xml_match_adds_tag
    (tree : XML) (element_dict input_dict : List (String × String))
    (i a u : String) (e t' : XML) (out : List (String × String))
    (hnd : (keys element_dict).Nodup)
    (hmem : (i, a) ∈ element_dict)
    (hrec : input_dict.lookup a = some u)
    (hfind : findByIdL tree.childList i = some e)
    (hrun : append_xml tree element_dict input_dict = some (t', out)) :
    out.lookup i = some a ∧
      ∃ e', findByIdL t'.childList i = some e' ∧
        e'.childList.length = e.childList.length + 1 ∧
        dwellingTag u ∈ e'.childList :=
  appendXmlGo_match input_dict i a u hrec element_dict tree [] t' out e
    hrun hnd hmem hfind

/-- C2: non-match frame property of the reconciler.  For an entry `(i, a)`
of `element_dict` whose address is not a key of `input_dict`, a successful
`append_xml` run leaves no binding for `i` in the output mapping, and the
element with id `i` keeps its tag, its attributes and its child count (no
tag child is appended to it). -/
theorem append_xml_nonmatch_frame
    (tree : XML) (element_dict input_dict : List (String × String))
    (i a : String) (e t' : XML) (out : List (String × String))
    (hnd : (keys element_dict).Nodup)
    (hmem : (i, a) ∈ element_dict)
    (hrec : input_dict.lookup a = none)
    (hfind : findByIdL tree.childList i = some e)
    (hrun : append_xml tree element_dict input_dict = some (t', out)) :
    out.lookup i = none ∧
      ∃ e', findByIdL t'.childList i = some e' ∧ e'.tagName = e.tagName ∧
        e'.attrList = e.attrList ∧
        e'.childList.length = e.childList.length := by
  have hskip : ∀ b, (i, b) ∈ element_dict → input_dict.lookup b = none := by
    intro b hb
    rw [nodup_keys_eq_val element_dict hnd i b a hb hmem]
    exact hrec
  constructor
  · rw [appendXmlGo_lookup_skip input_dict i element_dict tree [] t' out
      hrun hskip]
    rfl
  · obtain ⟨e', hf', g1, g2, g3, g4⟩ :=
      appendXmlGo_frame input_dict i element_dict tree [] t' out e
        hrun hskip hfind
    exact ⟨e', hf', g1, g2, g3⟩

/-! Concrete elements for the reconciler witnesses. -/

def wTagHN : XML := .mk "tag" [("k", "addr:housenumber"), ("v", "100")] []
def wTagST : XML := .mk "tag" [("k", "addr:street"), ("v", "main street")] []
def wNode : XML := .mk "node" [("id", "7")] [wTagHN, wTagST]
def wTree : XML := .mk "osm" [] [wNode]
def wNodeOut : XML := .mk "node" [("id", "7")] [wTagHN, wTagST, dwellingTag "4"]
def wTreeOut : XML := .mk "osm" [] [wNodeOut]

/-- C1, witness: the spec's concrete instance.  `records = {"100 main
street": "4"}`, `geo_elements = {"7": "100 main street"}`, and a tree
whose node `7` carries the two address tags: the run records the match
and node `7` gains the `dwelling_units="4"` tag. -/
theorem append_xml_match_adds_tag_witness :
    (keys [("7", "100 main street")]).Nodup ∧
    ("7", "100 main street") ∈ [("7", "100 main street")] ∧
    List.lookup "100 main street" [("100 main street", "4")] = some "4" ∧
    findByIdL wTree.childList "7" = some wNode ∧
    append_xml wTree [("7", "100 main street")] [("100 main street", "4")]
      = some (wTreeOut, [("7", "100 main street")]) ∧
    (List.lookup "7" [("7", "100 main street")] = some "100 main street" ∧
      ∃ e', findByIdL wTreeOut.childList "7" = some e' ∧
        e'.childList.length = wNode.childList.length + 1 ∧
        dwellingTag "4" ∈ e'.childList) :=
  have h1 : (keys [("7", "100 main street")]).Nodup := by decide
  have h2 : ("7", "100 main street") ∈ [("7", "100 main street")] := by decide
  have h3 : List.lookup "100 main street" [("100 main street", "4")]
      = some "4" := by decide
  have h4 : findByIdL wTree.childList "7" = some wNode := by
    simp [wTree, wNode, wTagHN, wTagST, findByIdL, XML.getAttr, XML.attrList,
      XML.childList, List.lookup]
  have h5 : append_xml wTree [("7", "100 main street")]
      [("100 main street", "4")] = some (wTreeOut, [("7", "100 main street")]) := by
    simp [append_xml, appendXmlGo, wTree, wNode, wTreeOut, wNodeOut, wTagHN,
      wTagST, dwellingTag, findByIdL, appendTagByIdL, addChild, dinsert,
      XML.getAttr, XML.attrList, XML.childList, XML.tagName, List.lookup]
  ⟨h1, h2, h3, h4, h5,
    append_xml_match_adds_tag wTree [("7", "100 main street")]
      [("100 main street", "4")] "7" "100 main street" "4" wNode wTreeOut
      [("7", "100 main street")] h1 h2 h3 h4 h5⟩

def w2Node : XML := .mk "node" [("id", "8")] [wTagHN]
def w2Tree : XML := .mk "osm" [] [w2Node]

/-- C2, witness: an element whose address is absent from the records: no
output entry, and node `8` is left intact. -/
theorem append_xml_nonmatch_frame_witness :
    (keys [("8", "1 elm court")]).Nodup ∧
    ("8", "1 elm court") ∈ [("8", "1 elm court")] ∧
    List.lookup "1 elm court" [("100 main street", "4")] = none ∧
    findByIdL w2Tree.childList "8" = some w2Node ∧
    append_xml w2Tree [("8", "1 elm court")] [("100 main street", "4")]
      = some (w2Tree, []) ∧
    (List.lookup "8" ([] : List (String × String)) = none ∧
      ∃ e', findByIdL w2Tree.childList "8" = some e' ∧
        e'.tagName = w2Node.tagName ∧ e'.attrList = w2Node.attrList ∧
        e'.childList.length = w2Node.childList.length) :=
  have h1 : (keys [("8", "1 elm court")]).Nodup := by decide
  have h2 : ("8", "1 elm court") ∈ [("8", "1 elm court")] := by decide
  have h3 : List.lookup "1 elm court" [("100 main street", "4")] = none := by
    decide
  have h4 : findByIdL w2Tree.childList "8" = some w2Node := by
    simp [w2Tree, w2Node, wTagHN, findByIdL, XML.getAttr, XML.attrList,
      XML.childList, List.lookup]
  have h5 : append_xml w2Tree [("8", "1 elm court")]
      [("100 main street", "4")] = some (w2Tree, []) := by
    simp [append_xml, appendXmlGo, List.lookup]
  ⟨h1, h2, h3, h4, h5,
    append_xml_nonmatch_frame w2Tree [("8", "1 elm court")]
      [("100 main street", "4")] "8" "1 elm court" w2Node w2Tree []
      h1 h2 h3 h4 h5⟩

/-! ## The geodata extractor `extract_osm_data` -/

/-- All elements of a forest in document (preorder) order; applied to
`[t]` it yields every element of the tree `t`, root included, matching
the scope of the `//`-axis in the source's xpath queries. -/
def elemsL : List XML → List XML
  | [] => []
  | .mk tg a c :: xs => XML.mk tg a c :: (elemsL c ++ elemsL xs)

/-- A `tag` child carrying one of the two address markers, as selected by
`tag[@k='addr:street' or @k='addr:housenumber']`. -/
def isMarkerTag (x : XML) : Bool :=
  x.tagName == "tag" &&
    (x.getAttr "k" == some "addr:street" || x.getAttr "k" == some "addr:housenumber")

/-- The `descendant::tag[@k=...]` predicate of the way-branch of the
element query. -/
def hasMarkerDesc (x : XML) : Bool :=
  (elemsL x.childList).any isMarkerTag

/-- The element query `//node|//way[descendant::tag[@k='addr:street' or
@k='addr:housenumber']]`: the predicate binds only to the way branch, so
every `node` is selected unconditionally. -/
def qualifies (x : XML) : Bool :=
  x.tagName == "node" || (x.tagName == "way" && hasMarkerDesc x)

/-- The element's own marker-tag children. -/
def tagChildren (x : XML) : List XML :=
  x.childList.filter isMarkerTag

/-- The `tags` dict: `tags[tag.get('k')] = tag.get('v')` over the marker
children.  Values are optional because `get('v')` yields `None` when the
attribute is missing. -/
def tagsDict (x : XML) : List (String × Option String) :=
  (tagChildren x).foldl
    (fun acc c => dinsert acc ((c.getAttr "k").getD "") (c.getAttr "v")) []

/-- `str(element.get('id'))`: Python renders a missing attribute as the
string `"None"`. -/
def idStr (x : XML) : String :=
  (x.getAttr "id").getD "None"

/-- `.lower()` on strings. -/
def pyLowerS (s : String) : String :=
  (pyLower s.toList).asString

/-- The housenumber value recorded for an element, when present. -/
def hnv (x : XML) : Option String :=
  ((tagsDict x).lookup "addr:housenumber").join

/-- The street value recorded for an element, when present. -/
def stv (x : XML) : Option String :=
  ((tagsDict x).lookup "addr:street").join

/-- The loop of `extract_osm_data` over the selected elements.  An element
whose `tags` dict has both markers contributes
`address_dict[id] = (housenumber + " " + street).lower()`; `none` models
the `TypeError`/`KeyError` raised by the string join when a marker tag
has no `v` value. -/
def osmFold : List XML → List (String × String) → Option (List (String × String))
  | [], acc => some acc
  | x :: xs, acc =>
    if 1 < (tagsDict x).length then
      match (tagsDict x).lookup "addr:housenumber", (tagsDict x).lookup "addr:street" with
      | some (some hn), some (some st) =>
        osmFold xs (dinsert acc (idStr x) (pyLowerS (hn ++ " " ++ st)))
      | _, _ => none
    else osmFold xs acc

/-- `extract_osm_data`, over the parsed tree. -/
def extract_osm_data (t : XML) : Option (List (String × String)) :=
  osmFold ((elemsL [t]).filter qualifies) []

/-- The entry an element contributes. -/
def osmEntry (x : XML) : String × String :=
  (idStr x, pyLowerS (((hnv x).getD "") ++ " " ++ ((stv x).getD "")))

theorem mem_elemsL_of_mem (l : List XML) (y : XML) (hy : y ∈ l) :
    y ∈ elemsL l := by
  induction l with
  | nil => simp at hy
  | cons x xs ih =>
    obtain ⟨tg, a, c⟩ := x
    rw [elemsL]
    rcases List.mem_cons.mp hy with h1 | h2
    · exact h1 ▸ List.mem_cons_self _ _
    · exact List.mem_cons_of_mem _ (List.mem_append_right _ (ih h2))

theorem tagChildren_ne_nil_of_tags (x : XML)
    (h : 1 < (tagsDict x).length) : tagChildren x ≠ [] := by
  intro hc
  rw [tagsDict, hc] at h
  simp at h

/-- An element of either interesting kind whose `tags` dict has both
markers is selected by the element query. -/
theorem qualifies_of_both (x : XML)
    (hkind : x.tagName = "node" ∨ x.tagName = "way")
    (h : 1 < (tagsDict x).length) : qualifies x = true := by
  rcases hkind with hn | hw
  · simp [qualifies, hn]
  · have hne := tagChildren_ne_nil_of_tags x h
    obtain ⟨c, hc⟩ : ∃ c, c ∈ tagChildren x := by
      cases htc : tagChildren x with
      | nil => exact absurd htc hne
      | cons y ys => exact ⟨y, List.mem_cons_self _ _⟩
    rw [tagChildren] at hc
    have hcmem : c ∈ x.childList := List.mem_of_mem_filter hc
    have hcmark : isMarkerTag c = true := List.of_mem_filter hc
    have : hasMarkerDesc x = true := by
      rw [hasMarkerDesc]
      exact List.any_eq_true.mpr ⟨c, mem_elemsL_of_mem _ c hcmem, hcmark⟩
    simp [qualifies, hw, this]

theorem dinsert_append_of_not_mem {α : Type} (d : List (String × α))
    (k : String) (v : α) (hk : k ∉ keys d) :
    dinsert d k v = d ++ [(k, v)] := by
  induction d with
  | nil => rfl
  | cons p ps ih =>
    have hk2 : k ∉ keys ps := fun hc => hk (List.mem_cons_of_mem _ hc)
    have hpk : (p.1 == k) = false := by
      have : p.1 ≠ k := by
        intro hc
        subst hc
        exact hk (List.mem_cons_self _ _)
      simpa using this
    rw [dinsert, if_neg (by simp [hpk]), ih hk2]
    rfl

/-- The fold computes `acc ++ entries` when the contributed ids are fresh
and mutually distinct and every contributing element has both marker
values. -/
theorem osmFold_spec (L : List XML) :
    ∀ (acc : List (String × String)),
      (∀ x ∈ L, 1 < (tagsDict x).length →
        ∃ hn st, hnv x = some hn ∧ stv x = some st) →
      (∀ x ∈ L, 1 < (tagsDict x).length → idStr x ∉ keys acc) →
      ((L.filter (fun x => decide (1 < (tagsDict x).length))).map idStr).Nodup →
      osmFold L acc =
        some (acc ++
          (L.filter (fun x => decide (1 < (tagsDict x).length))).map osmEntry) := by
  induction L with
  | nil => intro acc _ _ _; simp [osmFold]
  | cons x xs ih =>
    intro acc hv hfresh hnd
    by_cases hx : 1 < (tagsDict x).length
    · obtain ⟨hn, st, hhn, hst⟩ := hv x (List.mem_cons_self _ _) hx
      have hhn' : (tagsDict x).lookup "addr:housenumber" = some (some hn) := by
        rw [hnv] at hhn
        exact Option.join_eq_some.mp hhn
      have hst' : (tagsDict x).lookup "addr:street" = some (some st) := by
        rw [stv] at hst
        exact Option.join_eq_some.mp hst
      rw [osmFold, if_pos hx]
      simp only [hhn', hst']
      have hfilter :
          (x :: xs).filter (fun x => decide (1 < (tagsDict x).length)) =
            x :: xs.filter (fun x => decide (1 < (tagsDict x).length)) := by
        rw [List.filter_cons_of_pos (by simpa using hx)]
      rw [hfilter] at hnd
      rw [List.map_cons, List.nodup_cons] at hnd
      have hentry : osmEntry x = (idStr x, pyLowerS (hn ++ " " ++ st)) := by
        simp [osmEntry, hhn, hst]
      have hrec := ih (dinsert acc (idStr x) (pyLowerS (hn ++ " " ++ st)))
        (fun y hy hty => hv y (List.mem_cons_of_mem _ hy) hty)
        ?_ hnd.2
      · rw [hrec, hfilter, List.map_cons, hentry,
          dinsert_append_of_not_mem acc (idStr x) (pyLowerS (hn ++ " " ++ st))
            (hfresh x (List.mem_cons_self _ _) hx)]
        simp
      · intro y hy hty
        rw [dinsert_append_of_not_mem acc (idStr x) (pyLowerS (hn ++ " " ++ st))
          (hfresh x (List.mem_cons_self _ _) hx)]
        rw [keys, List.map_append]
        intro hc
        rcases List.mem_append.mp hc with hc1 | hc2
        · exact hfresh y (List.mem_cons_of_mem _ hy) hty hc1
        · apply hnd.1
          have : idStr y = idStr x := by simpa using hc2
          rw [← this]
          exact List.mem_map_of_mem idStr
            (List.mem_filter.mpr ⟨hy, by simpa using hty⟩)
    · rw [osmFold, if_neg hx]
      have hfilter :
          (x :: xs).filter (fun x => decide (1 < (tagsDict x).length)) =
            xs.filter (fun x => decide (1 < (tagsDict x).length)) := by
        rw [List.filter_cons_of_neg (by simpa using hx)]
      rw [hfilter] at hnd
      rw [ih acc (fun y hy hty => hv y (List.mem_cons_of_mem _ hy) hty)
        (fun y hy hty => hfresh y (List.mem_cons_of_mem _ hy) hty) hnd, hfilter]

/-- Lookup in the entry list of a run of elements with distinct ids. -/
theorem lookup_map_osmEntry (M : List XML) (i a : String) :
    (M.map idStr).Nodup →
      ((M.map osmEntry).lookup i = some a ↔
        ∃ x, x ∈ M ∧ idStr x = i ∧ (osmEntry x).2 = a) := by
  induction M with
  | nil =>
    intro _
    simp [List.lookup]
  | cons y ys ih =>
    intro hnd
    rw [List.map_cons, List.nodup_cons] at hnd
    by_cases hiy : i = idStr y
    · subst hiy
      constructor
      · intro h
        refine ⟨y, List.mem_cons_self _ _, rfl, ?_⟩
        simp [osmEntry, List.lookup] at h
        simp [osmEntry, h]
      · rintro ⟨x, hx, hxid, hxval⟩
        rcases List.mem_cons.mp hx with rfl | hx2
        · simp [osmEntry, List.lookup] at hxval ⊢
          exact hxval
        · exfalso
          apply hnd.1
          rw [← hxid]
          exact List.mem_map_of_mem idStr hx2
    · have hb : (i == idStr y) = false := by simpa using hiy
      constructor
      · intro h
        simp only [List.map_cons, osmEntry, List.lookup, hb] at h
        obtain ⟨x, hx, hxid, hxval⟩ := (ih hnd.2).mp (by simpa [osmEntry] using h)
        exact ⟨x, List.mem_cons_of_mem _ hx, hxid, hxval⟩
      · rintro ⟨x, hx, hxid, hxval⟩
        rcases List.mem_cons.mp hx with rfl | hx2
        · exact absurd hxid.symm hiy
        · have := (ih hnd.2).mpr ⟨x, hx2, hxid, hxval⟩
          simp only [List.map_cons, osmEntry, List.lookup, hb]
          simpa [osmEntry] using this

/-- C8: selection and construction in the geodata extractor.  Under the
well-formedness conditions that every selected element with both markers
has `v` values on its marker tags and an `id` attribute, and that those
ids are pairwise distinct, `extract_osm_data` succeeds and its result
binds `i` to `a` exactly when some node or way of the tree has id `i`,
both marker tags among its `tag` children, and
`a = (housenumber + " " + street).lower()`; an element with only one of
the two markers contributes nothing. -/
theorem extract_osm_data_spec (t : XML)
    (hv : ∀ x, x ∈ elemsL [t] → qualifies x = true → 1 < (tagsDict x).length →
      ∃ hn st, hnv x = some hn ∧ stv x = some st)
    (hid : ∀ x, x ∈ elemsL [t] → qualifies x = true → 1 < (tagsDict x).length →
      (x.getAttr "id").isSome = true)
    (hnd : ((((elemsL [t]).filter qualifies).filter
        (fun x => decide (1 < (tagsDict x).length))).map idStr).Nodup) :
    ∃ d, extract_osm_data t = some d ∧
      ∀ i a, d.lookup i = some a ↔
        ∃ x, x ∈ elemsL [t] ∧ (x.tagName = "node" ∨ x.tagName = "way") ∧
          1 < (tagsDict x).length ∧ x.getAttr "id" = some i ∧
          ∃ hn st, hnv x = some hn ∧ stv x = some st ∧
            a = pyLowerS (hn ++ " " ++ st) := by
  have hmemL : ∀ x, x ∈ (elemsL [t]).filter qualifies →
      x ∈ elemsL [t] ∧ qualifies x = true := by
    intro x hx
    exact ⟨List.mem_of_mem_filter hx, List.of_mem_filter hx⟩
  have hrun := osmFold_spec ((elemsL [t]).filter qualifies) []
    (fun x hx ht => hv x (hmemL x hx).1 (hmemL x hx).2 ht)
    (fun x hx ht => by simp [keys])
    hnd
  rw [List.nil_append] at hrun
  refine ⟨_, hrun, ?_⟩
  intro i a
  rw [lookup_map_osmEntry _ i a hnd]
  constructor
  · rintro ⟨x, hx, hxid, hxval⟩
    have hx1 := List.mem_of_mem_filter hx
    have htags : 1 < (tagsDict x).length := by
      simpa using (List.of_mem_filter hx)
    obtain ⟨hmem, hq⟩ := hmemL x hx1
    have hkind : x.tagName = "node" ∨ x.tagName = "way" := by
      rw [qualifies] at hq
      rcases Bool.or_eq_true_iff.mp hq with h1 | h2
      · exact Or.inl (by simpa using h1)
      · exact Or.inr (by simpa using (Bool.and_eq_true_iff.mp h2).1)
    obtain ⟨hn, st, hhn, hst⟩ := hv x hmem hq htags
    have hgid : x.getAttr "id" = some i := by
      have := hid x hmem hq htags
      obtain ⟨v, hvv⟩ := Option.isSome_iff_exists.mp this
      rw [hvv]
      rw [idStr, hvv] at hxid
      simpa using hxid
    refine ⟨x, hmem, hkind, htags, hgid, hn, st, hhn, hst, ?_⟩
    rw [← hxval]
    simp [osmEntry, hhn, hst]
  · rintro ⟨x, hmem, hkind, htags, hgid, hn, st, hhn, hst, ha⟩
    have hq := qualifies_of_both x hkind htags
    refine ⟨x, ?_, ?_, ?_⟩
    · exact List.mem_filter.mpr
        ⟨List.mem_filter.mpr ⟨hmem, hq⟩, by simpa using htags⟩
    · rw [idStr, hgid]
      rfl
    · simp [osmEntry, hhn, hst, ha]

/-- C8, witness: a single node carrying both marker tags.  The extractor
produces exactly the binding `"7" ↦ "100 main street"`. -/
theorem extract_osm_data_spec_witness :
    (∀ x, x ∈ elemsL [wNode] → qualifies x = true → 1 < (tagsDict x).length →
      ∃ hn st, hnv x = some hn ∧ stv x = some st) ∧
    (∀ x, x ∈ elemsL [wNode] → qualifies x = true → 1 < (tagsDict x).length →
      (x.getAttr "id").isSome = true) ∧
    ((((elemsL [wNode]).filter qualifies).filter
        (fun x => decide (1 < (tagsDict x).length))).map idStr).Nodup ∧
    (∃ d, extract_osm_data wNode = some d ∧
      ∀ i a, d.lookup i = some a ↔
        ∃ x, x ∈ elemsL [wNode] ∧ (x.tagName = "node" ∨ x.tagName = "way") ∧
          1 < (tagsDict x).length ∧ x.getAttr "id" = some i ∧
          ∃ hn st, hnv x = some hn ∧ stv x = some st ∧
            a = pyLowerS (hn ++ " " ++ st)) :=
  have hE : elemsL [wNode] = [wNode, wTagHN, wTagST] := by
    simp [elemsL, wNode, wTagHN, wTagST, XML.childList]
  have h1 : ∀ x, x ∈ elemsL [wNode] → qualifies x = true →
      1 < (tagsDict x).length →
      ∃ hn st, hnv x = some hn ∧ stv x = some st := by
    intro x hx hq ht
    rw [hE] at hx
    simp only [List.mem_cons, List.not_mem_nil, or_false] at hx
    rcases hx with rfl | rfl | rfl
    · exact ⟨"100", "main street", by decide, by decide⟩
    · exact absurd ht (by decide)
    · exact absurd ht (by decide)
  have h2 : ∀ x, x ∈ elemsL [wNode] → qualifies x = true →
      1 < (tagsDict x).length → (x.getAttr "id").isSome = true := by
    intro x hx hq ht
    rw [hE] at hx
    simp only [List.mem_cons, List.not_mem_nil, or_false] at hx
    rcases hx with rfl | rfl | rfl
    · decide
    · exact absurd ht (by decide)
    · exact absurd ht (by decide)
  have hM : (((elemsL [wNode]).filter qualifies).filter
      (fun x => decide (1 < (tagsDict x).length))) = [wNode] := by
    rw [hE]
    simp [qualifies, hasMarkerDesc, isMarkerTag, wNode, wTagHN, wTagST,
      XML.tagName, XML.childList, XML.getAttr, XML.attrList, tagsDict,
      tagChildren, dinsert, List.lookup]
  have h3 : ((((elemsL [wNode]).filter qualifies).filter
      (fun x => decide (1 < (tagsDict x).length))).map idStr).Nodup := by
    rw [hM]
    decide
  ⟨h1, h2, h3, extract_osm_data_spec wNode h1 h2 h3⟩

/-! ## Idempotence of the normalizer (claim C6)

The development below characterises the strings `parse_address` emits and
shows that re-normalising one of them is the identity, provided it carries
no comma-joined unit suffix (the comma would be stripped as punctuation)
and no surrounding whitespace. -/

theorem splitWsAux_append_token (t : List Char) :
    ∀ (l acc : List Char), (∀ c ∈ t, isSpaceChar c = false) →
      splitWsAux (t ++ l) acc = splitWsAux l (acc ++ t) := by
  induction t with
  | nil => intro l acc _; simp
  | cons c cs ih =>
    intro l acc ht
    have hc : isSpaceChar c = false := ht c (List.mem_cons_self _ _)
    rw [List.cons_append, splitWsAux, if_neg (by simp [hc]),
      ih l (acc ++ [c]) (fun d hd => ht d (List.mem_cons_of_mem _ hd))]
    simp

theorem joinSpace_cons (t : List Char) (ts : List (List Char)) (h : ts ≠ []) :
    joinSpace (t :: ts) = t ++ ' ' :: joinSpace ts := by
  cases ts with
  | nil => exact absurd rfl h
  | cons u us => rfl

theorem splitWs_join (ts : List (List Char)) :
    ts ≠ [] → (∀ t ∈ ts, t ≠ []) →
    (∀ t ∈ ts, ∀ c ∈ t, isSpaceChar c = false) →
    splitWs (joinSpace ts) = ts := by
  induction ts with
  | nil => intro h _ _; exact absurd rfl h
  | cons t ts ih =>
    intro _ hne hns
    have htne : t ≠ [] := hne t (List.mem_cons_self _ _)
    have htns : ∀ c ∈ t, isSpaceChar c = false := hns t (List.mem_cons_self _ _)
    cases ts with
    | nil =>
      show splitWs (joinSpace [t]) = [t]
      rw [joinSpace, splitWs]
      have : splitWsAux t [] = splitWsAux (t ++ []) [] := by rw [List.append_nil]
      rw [this, splitWsAux_append_token t [] [] htns, List.nil_append, splitWsAux,
        if_neg (by simpa [List.isEmpty_iff] using htne)]
    | cons u us =>
      rw [joinSpace_cons t (u :: us) (by simp), splitWs,
        splitWsAux_append_token t (' ' :: joinSpace (u :: us)) [] htns,
        List.nil_append, splitWsAux, if_pos (by decide),
        if_neg (by simpa [List.isEmpty_iff] using htne)]
      rw [show splitWsAux (joinSpace (u :: us)) [] = splitWs (joinSpace (u :: us)) from rfl,
        ih (by simp) (fun v hv => hne v (List.mem_cons_of_mem _ hv))
          (fun v hv => hns v (List.mem_cons_of_mem _ hv))]

theorem splitWsAux_ne_nil (l : List Char) :
    ∀ acc : List Char, acc ≠ [] → splitWsAux l acc ≠ [] := by
  induction l with
  | nil =>
    intro acc h
    rw [splitWsAux, if_neg (by simpa [List.isEmpty_iff] using h)]
    simp
  | cons c cs ih =>
    intro acc h
    rw [splitWsAux]
    by_cases hc : isSpaceChar c = true
    · rw [if_pos hc, if_neg (by simpa [List.isEmpty_iff] using h)]
      simp
    · rw [if_neg hc]
      exact ih (acc ++ [c]) (by simp)

theorem splitWsAux_nil_all_space (l : List Char) :
    ∀ acc : List Char, splitWsAux l acc = [] → ∀ c ∈ l, isSpaceChar c = true := by
  induction l with
  | nil => intro _ _ c hc; simp at hc
  | cons d ds ih =>
    intro acc h c hc
    rw [splitWsAux] at h
    by_cases hd : isSpaceChar d = true
    · rw [if_pos hd] at h
      rcases List.mem_cons.mp hc with rfl | hc2
      · exact hd
      · by_cases ha : acc.isEmpty
        · rw [if_pos ha] at h
          exact ih [] h c hc2
        · rw [if_neg ha] at h
          exact absurd h (by simp)
    · rw [if_neg hd] at h
      exact absurd h (splitWsAux_ne_nil ds (acc ++ [d]) (by simp))

theorem mem_chars_splitWsAux (l : List Char) :
    ∀ (acc t : List Char), t ∈ splitWsAux l acc → ∀ c ∈ t, c ∈ l ∨ c ∈ acc := by
  induction l with
  | nil =>
    intro acc t ht c hc
    rw [splitWsAux] at ht
    by_cases ha : acc.isEmpty
    · rw [if_pos ha] at ht; simp at ht
    · rw [if_neg ha] at ht
      rcases List.mem_singleton.mp ht with rfl
      exact Or.inr hc
  | cons d ds ih =>
    intro acc t ht c hc
    rw [splitWsAux] at ht
    by_cases hd : isSpaceChar d = true
    · rw [if_pos hd] at ht
      by_cases ha : acc.isEmpty
      · rw [if_pos ha] at ht
        rcases ih [] t ht c hc with h1 | h2
        · exact Or.inl (List.mem_cons_of_mem _ h1)
        · simp at h2
      · rw [if_neg ha] at ht
        rcases List.mem_cons.mp ht with rfl | ht2
        · exact Or.inr hc
        · rcases ih [] t ht2 c hc with h1 | h2
          · exact Or.inl (List.mem_cons_of_mem _ h1)
          · simp at h2
    · rw [if_neg hd] at ht
      rcases ih (acc ++ [d]) t ht c hc with h1 | h2
      · exact Or.inl (List.mem_cons_of_mem _ h1)
      · rcases List.mem_append.mp h2 with h3 | h4
        · exact Or.inr h3
        · rcases List.mem_singleton.mp h4 with rfl
          exact Or.inl (List.mem_cons_self _ _)

theorem nospace_splitWsAux (l : List Char) :
    ∀ (acc t : List Char), (∀ c ∈ acc, isSpaceChar c = false) →
      t ∈ splitWsAux l acc → ∀ c ∈ t, isSpaceChar c = false := by
  induction l with
  | nil =>
    intro acc t hacc ht c hc
    rw [splitWsAux] at ht
    by_cases ha : acc.isEmpty
    · rw [if_pos ha] at ht; simp at ht
    · rw [if_neg ha] at ht
      rcases List.mem_singleton.mp ht with rfl
      exact hacc c hc
  | cons d ds ih =>
    intro acc t hacc ht c hc
    rw [splitWsAux] at ht
    by_cases hd : isSpaceChar d = true
    · rw [if_pos hd] at ht
      by_cases ha : acc.isEmpty
      · rw [if_pos ha] at ht
        exact ih [] t (by simp) ht c hc
      · rw [if_neg ha] at ht
        rcases List.mem_cons.mp ht with rfl | ht2
        · exact hacc c hc
        · exact ih [] t (by simp) ht2 c hc
    · rw [if_neg hd] at ht
      refine ih (acc ++ [d]) t ?_ ht c hc
      intro e he
      rcases List.mem_append.mp he with h1 | h2
      · exact hacc e h1
      · rcases List.mem_singleton.mp h2 with rfl
        simpa using hd

theorem token_ne_nil_splitWsAux (l : List Char) :
    ∀ (acc t : List Char), t ∈ splitWsAux l acc → t ≠ [] := by
  induction l with
  | nil =>
    intro acc t ht
    rw [splitWsAux] at ht
    by_cases ha : acc.isEmpty
    · rw [if_pos ha] at ht; simp at ht
    · rw [if_neg ha] at ht
      rcases List.mem_singleton.mp ht with rfl
      simpa [List.isEmpty_iff] using ha
  | cons d ds ih =>
    intro acc t ht
    rw [splitWsAux] at ht
    by_cases hd : isSpaceChar d = true
    · rw [if_pos hd] at ht
      by_cases ha : acc.isEmpty
      · rw [if_pos ha] at ht
        exact ih [] t ht
      · rw [if_neg ha] at ht
        rcases List.mem_cons.mp ht with rfl | ht2
        · simpa [List.isEmpty_iff] using ha
        · exact ih [] t ht2
    · rw [if_neg hd] at ht
      exact ih (acc ++ [d]) t ht

theorem pyStrip_all_space (l : List Char)
    (h : ∀ c ∈ l, isSpaceChar c = true) : pyStrip l = [] := by
  rw [pyStrip, List.dropWhile_eq_nil_iff.mpr (fun c hc => h c hc)]
  simp

theorem mem_joinSpace (ts : List (List Char)) :
    ∀ c, c ∈ joinSpace ts → (∃ t ∈ ts, c ∈ t) ∨ c = ' ' := by
  induction ts with
  | nil => intro c hc; simp [joinSpace] at hc
  | cons t ts ih =>
    intro c hc
    cases ts with
    | nil =>
      rw [joinSpace] at hc
      exact Or.inl ⟨t, List.mem_cons_self _ _, hc⟩
    | cons u us =>
      rw [joinSpace_cons t (u :: us) (by simp)] at hc
      rcases List.mem_append.mp hc with h1 | h2
      · exact Or.inl ⟨t, List.mem_cons_self _ _, h1⟩
      · rcases List.mem_cons.mp h2 with rfl | h3
        · exact Or.inr rfl
        · rcases ih c h3 with ⟨v, hv, hcv⟩ | h4
          · exact Or.inl ⟨v, List.mem_cons_of_mem _ hv, hcv⟩
          · exact Or.inr h4

theorem char_le_iff (a b : Char) : a ≤ b ↔ a.toNat ≤ b.toNat :=
  Iff.rfl

theorem toNat_ofNat_of_lt (n : Nat) (h : n < 55296) :
    (Char.ofNat n).toNat = n := by
  rw [Char.ofNat, dif_pos (Or.inl h)]
  rfl

theorem lowerChar_toNat (c : Char) (h : 'A' ≤ c ∧ c ≤ 'Z') :
    (lowerChar c).toNat = c.toNat + 32 := by
  rw [lowerChar, if_pos h]
  have h90 : c.toNat ≤ 90 := (char_le_iff c 'Z').mp h.2
  exact toNat_ofNat_of_lt _ (by omega)

theorem lowerChar_idem (c : Char) : lowerChar (lowerChar c) = lowerChar c := by
  by_cases h : 'A' ≤ c ∧ c ≤ 'Z'
  · have h65 : 65 ≤ c.toNat := (char_le_iff 'A' c).mp h.1
    have ht : (lowerChar c).toNat = c.toNat + 32 := lowerChar_toNat c h
    have hz : ('Z' : Char).toNat = 90 := by decide
    have hneg : ¬('A' ≤ lowerChar c ∧ lowerChar c ≤ 'Z') := by
      intro hcontra
      have h2 := (char_le_iff (lowerChar c) 'Z').mp hcontra.2
      rw [ht, hz] at h2
      omega
    conv_lhs => rw [lowerChar]
    rw [if_neg hneg]
  · have he : lowerChar c = c := by rw [lowerChar, if_neg h]
    rw [he, he]

theorem mem_of_mem_pyStrip (l : List Char) (c : Char) (h : c ∈ pyStrip l) :
    c ∈ l := by
  rw [pyStrip, List.mem_reverse] at h
  have h2 := (List.dropWhile_sublist (l := (l.dropWhile isSpaceChar).reverse)
    (p := isSpaceChar)).subset h
  rw [List.mem_reverse] at h2
  exact (List.dropWhile_sublist (l := l) (p := isSpaceChar)).subset h2

theorem lower_fixed_of_mem_pyLower (l : List Char) (c : Char)
    (h : c ∈ pyLower l) : lowerChar c = c := by
  obtain ⟨c0, _, rfl⟩ := List.mem_map.mp h
  exact lowerChar_idem c0

theorem pyLower_eq_self (l : List Char) (h : ∀ c ∈ l, lowerChar c = c) :
    pyLower l = l := by
  rw [pyLower]
  rw [show l.map lowerChar = l.map id from List.map_congr_left h]
  exact List.map_id l

theorem removePunct_eq_self (l : List Char)
    (h : ∀ c ∈ l, (isWordChar c || isSpaceChar c) = true) :
    removePunct l = l :=
  List.filter_eq_self.mpr h

/-- Characters surviving the cleaning pass are lowercase-fixed and kept by
the punctuation filter. -/
theorem cleanAddr_char_good (l : List Char) (c : Char) (h : c ∈ cleanAddr l) :
    lowerChar c = c ∧ (isWordChar c || isSpaceChar c) = true := by
  rw [cleanAddr, removePunct] at h
  obtain ⟨h2, hk⟩ := List.mem_filter.mp h
  exact ⟨lower_fixed_of_mem_pyLower l c (mem_of_mem_pyStrip (pyLower l) c h2), hk⟩

theorem lookup_mem {α β : Type} [BEq α] [LawfulBEq α] (l : List (α × β))
    (a : α) (b : β) (h : l.lookup a = some b) : (a, b) ∈ l := by
  induction l with
  | nil => simp [List.lookup] at h
  | cons p ps ih =>
    obtain ⟨k, w⟩ := p
    by_cases hk : a == k
    · have hak : a = k := eq_of_beq hk
      subst hak
      simp [List.lookup] at h
      subst h
      exact List.mem_cons_self _ _
    · simp only [List.lookup, Bool.of_not_eq_true hk, cond_false] at h
      exact List.mem_cons_of_mem _ (ih h)

/-- The decidable facts about the abbreviation table that the idempotence
argument needs: no expansion is itself a key, no expansion looks like a
unit designator, and every expansion is a nonempty run of lowercase word
characters. -/
theorem street_types_lower_facts :
    street_types_lower.all (fun p =>
      ((street_types_lower.lookup p.2).isNone && !unitLike p.2 && !p.2.isEmpty) &&
        p.2.all (fun c =>
          !isSpaceChar c && (isWordChar c || isSpaceChar c) &&
            decide (lowerChar c = c))) = true := by decide

theorem table_value_props (t v : List Char)
    (h : street_types_lower.lookup t = some v) :
    street_types_lower.lookup v = none ∧ unitLike v = false ∧ v ≠ [] ∧
      ∀ c ∈ v, isSpaceChar c = false ∧ (isWordChar c || isSpaceChar c) = true ∧
        lowerChar c = c := by
  have hmem : (t, v) ∈ street_types_lower := lookup_mem _ t v h
  have hall := List.all_eq_true.mp street_types_lower_facts _ hmem
  simp only [Bool.and_eq_true, Bool.not_eq_true', Option.isNone_iff_eq_none,
    List.all_eq_true, decide_eq_true_eq, List.isEmpty_iff] at hall
  obtain ⟨⟨⟨hkey, hunit⟩, hempty⟩, hchars⟩ := hall
  have hne : v ≠ [] := by
    intro hv
    rw [hv] at hempty
    simp at hempty
  refine ⟨hkey, hunit, hne, ?_⟩
  intro c hc
  obtain ⟨⟨hsp, hkeep⟩, hlow⟩ := hchars c hc
  exact ⟨by simpa using hsp, hkeep, hlow⟩

theorem expandTok_cases (t : List Char) :
    expandTok t = t ∨
      ∃ v, street_types_lower.lookup t = some v ∧ expandTok t = v := by
  rw [expandTok]
  cases hl : street_types_lower.lookup t with
  | none => exact Or.inl rfl
  | some v => exact Or.inr ⟨v, rfl, rfl⟩

theorem expandTok_idem (t : List Char) :
    expandTok (expandTok t) = expandTok t := by
  rcases expandTok_cases t with h | ⟨v, hl, he⟩
  · rw [h]
    exact h
  · rw [he, expandTok, (table_value_props t v hl).1]

theorem expandTok_unitLike (t : List Char) (h : unitLike t = false) :
    unitLike (expandTok t) = false := by
  rcases expandTok_cases t with he | ⟨v, hl, he⟩ <;> rw [he]
  · exact h
  · exact (table_value_props t v hl).2.1

theorem expandTok_good (t : List Char) (h1 : t ≠ [])
    (h2 : ∀ c ∈ t, isSpaceChar c = false ∧ (isWordChar c || isSpaceChar c) = true ∧
      lowerChar c = c) :
    expandTok t ≠ [] ∧
      ∀ c ∈ expandTok t, isSpaceChar c = false ∧
        (isWordChar c || isSpaceChar c) = true ∧ lowerChar c = c := by
  rcases expandTok_cases t with he | ⟨v, hl, he⟩ <;> rw [he]
  · exact ⟨h1, h2⟩
  · obtain ⟨-, -, hv1, hv2⟩ := table_value_props t v hl
    exact ⟨hv1, hv2⟩

theorem length_expandFirst (l : List (List Char)) :
    (expandFirst l).length = l.length := by
  cases l <;> simp [expandFirst]

theorem length_expandLast (l : List (List Char)) :
    (expandLast l).length = l.length := by
  induction l with
  | nil => rfl
  | cons t ts ih =>
    cases ts with
    | nil => rfl
    | cons u us =>
      rw [show expandLast (t :: u :: us) = t :: expandLast (u :: us) from rfl]
      rw [List.length_cons, List.length_cons, ih]

theorem getLastD_expandLast (l : List (List Char)) (h : l ≠ []) :
    ∀ d, (expandLast l).getLastD d = expandTok (l.getLastD d) := by
  induction l with
  | nil => exact absurd rfl h
  | cons t ts ih =>
    intro d
    cases ts with
    | nil => rfl
    | cons u us =>
      rw [show expandLast (t :: u :: us) = t :: expandLast (u :: us) from rfl,
        List.getLastD_cons, List.getLastD_cons]
      exact ih (List.cons_ne_nil _ _) t

theorem mem_expandFirst (l : List (List Char)) (t : List Char)
    (h : t ∈ expandFirst l) : t ∈ l ∨ ∃ t0, t0 ∈ l ∧ t = expandTok t0 := by
  cases l with
  | nil => simp [expandFirst] at h
  | cons a as =>
    rw [expandFirst] at h
    rcases List.mem_cons.mp h with rfl | h2
    · exact Or.inr ⟨a, List.mem_cons_self _ _, rfl⟩
    · exact Or.inl (List.mem_cons_of_mem _ h2)

theorem mem_expandLast (l : List (List Char)) (t : List Char)
    (h : t ∈ expandLast l) : t ∈ l ∨ ∃ t0, t0 ∈ l ∧ t = expandTok t0 := by
  induction l with
  | nil => simp [expandLast] at h
  | cons a as ih =>
    cases as with
    | nil =>
      rw [expandLast] at h
      rcases List.mem_singleton.mp h with rfl
      exact Or.inr ⟨a, List.mem_cons_self _ _, rfl⟩
    | cons b bs =>
      rw [show expandLast (a :: b :: bs) = a :: expandLast (b :: bs) from rfl] at h
      rcases List.mem_cons.mp h with rfl | h2
      · exact Or.inl (List.mem_cons_self _ _)
      · rcases ih h2 with h3 | ⟨t0, ht0, he⟩
        · exact Or.inl (List.mem_cons_of_mem _ h3)
        · exact Or.inr ⟨t0, List.mem_cons_of_mem _ ht0, he⟩

theorem expandLast_idem (l : List (List Char)) :
    expandLast (expandLast l) = expandLast l := by
  induction l with
  | nil => rfl
  | cons t ts ih =>
    cases ts with
    | nil =>
      rw [expandLast, expandLast, expandTok_idem]
    | cons u us =>
      obtain ⟨x, xs, hxx⟩ : ∃ x xs, expandLast (u :: us) = x :: xs := by
        cases hel : expandLast (u :: us) with
        | nil =>
          have := length_expandLast (u :: us)
          rw [hel] at this
          simp at this
        | cons x xs => exact ⟨x, xs, rfl⟩
      rw [show expandLast (t :: u :: us) = t :: expandLast (u :: us) from rfl,
        hxx, show expandLast (t :: x :: xs) = t :: expandLast (x :: xs) from rfl,
        ← hxx, ih]

/-- Evaluate `parseParts` on a nonempty street-token list when no unit is
detected. -/
theorem parseParts_no_unit (cl p0 : List Char) (y : List Char)
    (ys : List (List Char))
    (hu : ¬((decide (1 < (y :: ys : List (List Char)).length) &&
      unitLike ((y :: ys : List (List Char)).getLastD [])) = true)) :
    parseParts cl (p0 :: y :: ys) =
      some (p0 ++ ' ' :: joinSpace (expandLast (expandFirst (y :: ys)))) := by
  rw [parseParts]
  simp only [if_neg hu]

/-- C6, amended: idempotence of the normalizer holds for every canonical
string (every output of `parse_address`) that carries no comma-joined
unit suffix and no surrounding whitespace: `normalize(normalize raw) =
normalize raw` for such outputs.  Canonical strings with a comma-joined
unit suffix are genuine counterexamples, because re-normalisation strips
the comma as punctuation. -/
theorem parse_address_idem_amended (raw x : List Char)
    (h : parse_addressC raw = some x)
    (hc : (',' : Char) ∉ x)
    (hs : pyStrip x = x) :
    parse_addressC x = some x := by
  rw [parse_addressC] at h
  cases hsp : splitWs (cleanAddr raw) with
  | nil =>
    rw [hsp, parseParts] at h
    have hx : x = cleanAddr raw := (Option.some.inj h).symm
    have hall : ∀ c ∈ x, isSpaceChar c = true := by
      rw [hx]
      exact splitWsAux_nil_all_space _ [] hsp
    have hx0 : x = [] := by
      rw [← hs]
      exact pyStrip_all_space x hall
    rw [hx0]
    decide
  | cons p0 ps =>
    rw [hsp] at h
    have htoks : ∀ t, t ∈ p0 :: ps → t ≠ [] ∧ ∀ c ∈ t,
        isSpaceChar c = false ∧ (isWordChar c || isSpaceChar c) = true ∧
          lowerChar c = c := by
      intro t ht
      have htsp : t ∈ splitWs (cleanAddr raw) := by rw [hsp]; exact ht
      refine ⟨token_ne_nil_splitWsAux _ [] t htsp, ?_⟩
      intro c hct
      have hcl : c ∈ cleanAddr raw := by
        rcases mem_chars_splitWsAux _ [] t htsp c hct with h1 | h2
        · exact h1
        · simp at h2
      have hns : isSpaceChar c = false :=
        nospace_splitWsAux _ [] t (by simp) htsp c hct
      obtain ⟨hlow, hkeep⟩ := cleanAddr_char_good raw c hcl
      exact ⟨hns, hkeep, hlow⟩
    by_cases hu : (decide (1 < ps.length) && unitLike (ps.getLastD [])) = true
    · exfalso
      rw [parseParts] at h
      simp only [hu, if_true] at h
      cases hd : ps.dropLast.dropLast with
      | nil =>
        simp only [hd] at h
        exact Option.noConfusion h
      | cons s0 rest =>
        simp only [hd] at h
        have hx := (Option.some.inj h).symm
        apply hc
        rw [hx]
        simp
    · rw [parseParts] at h
      simp only [if_neg hu] at h
      cases ps with
      | nil => exact Option.noConfusion h
      | cons s0 rest =>
        have hx := (Option.some.inj h).symm
        set ts' := expandLast (expandFirst (s0 :: rest)) with hts
        have hlen' : ts'.length = rest.length + 1 := by
          rw [hts, length_expandLast, length_expandFirst, List.length_cons]
        have htsne : ts' ≠ [] := by
          intro h0
          rw [h0] at hlen'
          simp at hlen'
        have hmemts : ∀ t ∈ ts', t ∈ (s0 :: rest) ∨
            ∃ t0, t0 ∈ (s0 :: rest) ∧ t = expandTok t0 := by
          intro t ht
          rw [hts] at ht
          rcases mem_expandLast _ t ht with h1 | ⟨t0, ht0, he⟩
          · rcases mem_expandFirst _ t h1 with h2 | ⟨t1, ht1, he1⟩
            · exact Or.inl h2
            · exact Or.inr ⟨t1, ht1, he1⟩
          · rcases mem_expandFirst _ t0 ht0 with h2 | ⟨t1, ht1, he1⟩
            · exact Or.inr ⟨t0, h2, he⟩
            · exact Or.inr ⟨t1, ht1, by rw [he, he1, expandTok_idem]⟩
        have htokgood : ∀ t, t ∈ ts' → t ≠ [] ∧ ∀ c ∈ t,
            isSpaceChar c = false ∧ (isWordChar c || isSpaceChar c) = true ∧
              lowerChar c = c := by
          intro t ht
          rcases hmemts t ht with h1 | ⟨t0, ht0, he⟩
          · exact htoks t (List.mem_cons_of_mem _ h1)
          · obtain ⟨h0, hcs⟩ := htoks t0 (List.mem_cons_of_mem _ ht0)
            rw [he]
            exact expandTok_good t0 h0 hcs
        have hxgood : ∀ c ∈ x, lowerChar c = c ∧
            (isWordChar c || isSpaceChar c) = true := by
          intro c hcx
          rw [hx] at hcx
          rcases List.mem_append.mp hcx with h1 | h2
          · obtain ⟨-, hcs⟩ := htoks p0 (List.mem_cons_self _ _)
            obtain ⟨-, hk, hl⟩ := hcs c h1
            exact ⟨hl, hk⟩
          · rcases List.mem_cons.mp h2 with rfl | h3
            · exact ⟨by decide, by decide⟩
            · rcases mem_joinSpace ts' c h3 with ⟨t, ht, hct⟩ | rfl
              · obtain ⟨-, hcs⟩ := htokgood t ht
                obtain ⟨-, hk, hl⟩ := hcs c hct
                exact ⟨hl, hk⟩
              · exact ⟨by decide, by decide⟩
        have hclean : cleanAddr x = x := by
          rw [cleanAddr, pyLower_eq_self x (fun c hcx => (hxgood c hcx).1), hs,
            removePunct_eq_self x (fun c hcx => (hxgood c hcx).2)]
        have hsx : splitWs x = p0 :: ts' := by
          rw [hx, show p0 ++ ' ' :: joinSpace ts' = joinSpace (p0 :: ts') from
            (joinSpace_cons p0 ts' htsne).symm]
          apply splitWs_join
          · simp
          · intro t ht
            rcases List.mem_cons.mp ht with rfl | h2
            · exact (htoks t (List.mem_cons_self _ _)).1
            · exact (htokgood t h2).1
          · intro t ht c hct
            rcases List.mem_cons.mp ht with rfl | h2
            · exact ((htoks t (List.mem_cons_self _ _)).2 c hct).1
            · exact ((htokgood t h2).2 c hct).1
        have hu2 : ¬((decide (1 < ts'.length) &&
            unitLike (ts'.getLastD [])) = true) := by
          cases rest with
          | nil =>
            intro hcontra
            obtain ⟨hlt, -⟩ := Bool.and_eq_true_iff.mp hcontra
            rw [decide_eq_true_eq] at hlt
            rw [hlen'] at hlt
            simp at hlt
          | cons r1 rs =>
            intro hcontra
            obtain ⟨-, hul⟩ := Bool.and_eq_true_iff.mp hcontra
            have h1 : ts'.getLastD [] =
                expandTok ((s0 :: r1 :: rs : List (List Char)).getLastD []) := by
              rw [hts, getLastD_expandLast _ (by
                rw [show expandFirst (s0 :: r1 :: rs) = expandTok s0 :: r1 :: rs
                  from rfl]
                exact List.cons_ne_nil _ _) []]
              congr 1
            have hp1 : unitLike ((s0 :: r1 :: rs : List (List Char)).getLastD [])
                = false := by
              cases hul2 : unitLike ((s0 :: r1 :: rs : List (List Char)).getLastD [])
              · rfl
              · exfalso
                apply hu
                rw [hul2]
                simp
            rw [h1] at hul
            rw [expandTok_unitLike _ hp1] at hul
            exact Bool.noConfusion hul
        have hEF : expandFirst ts' = ts' := by
          cases rest with
          | nil =>
            rw [hts]
            rw [show expandFirst [s0] = [expandTok s0] from rfl,
              show expandLast [expandTok s0] = [expandTok (expandTok s0)] from rfl,
              expandTok_idem,
              show expandFirst [expandTok s0] = [expandTok (expandTok s0)] from rfl,
              expandTok_idem]
          | cons r1 rs =>
            rw [hts]
            rw [show expandFirst (s0 :: r1 :: rs) = expandTok s0 :: r1 :: rs
              from rfl]
            rw [show expandLast (expandTok s0 :: r1 :: rs) =
              expandTok s0 :: expandLast (r1 :: rs) from rfl]
            rw [show expandFirst (expandTok s0 :: expandLast (r1 :: rs)) =
              expandTok (expandTok s0) :: expandLast (r1 :: rs) from rfl,
              expandTok_idem]
        have hEL : expandLast (expandFirst ts') = ts' := by
          rw [hEF, hts, expandLast_idem]
        obtain ⟨y, ys, hys⟩ : ∃ y ys, ts' = y :: ys := by
          cases hts0 : ts' with
          | nil => exact absurd hts0 htsne
          | cons y ys => exact ⟨y, ys, rfl⟩
        rw [parse_addressC, hclean, hsx, hys,
          parseParts_no_unit x p0 y ys (by rw [← hys]; exact hu2),
          ← hys, hEL, hx]

/-- C6, counterexample: the canonical string `"100,4 pine street"` (the
normalizer's own output on `"100 Pine St Apt 4"`) is not a fixed point:
re-normalising strips the comma as punctuation and yields
`"1004 pine street"`. -/
theorem parse_address_idem_cex :
    parse_address "100 Pine St Apt 4" = some "100,4 pine street" ∧
      parse_address "100,4 pine street" ≠ some "100,4 pine street" :=
  ⟨by decide, by decide⟩

/-- C6, witness: the comma-free canonical output `"123 main street"` is a
fixed point of the normalizer. -/
theorem parse_address_idem_amended_witness :
    parse_addressC ("123 Main St".toList) = some ("123 main street".toList) ∧
      (',' : Char) ∉ ("123 main street".toList) ∧
      pyStrip ("123 main street".toList) = "123 main street".toList ∧
      parse_addressC ("123 main street".toList)
        = some ("123 main street".toList) :=
  have h1 : parse_addressC ("123 Main St".toList)
      = some ("123 main street".toList) := by decide
  have h2 : (',' : Char) ∉ ("123 main street".toList) := by decide
  have h3 : pyStrip ("123 main street".toList) = "123 main street".toList := by
    decide
  ⟨h1, h2, h3, parse_address_idem_amended _ _ h1 h2 h3⟩

end AddCsvToOsm
